import Mathlib

/-!
Verification of the structured-query compiler (path-to-tree compilation
pipeline): schema flattening, path validation, tree construction with
implicit-field expansion, sort-directive attachment, and serialization.

Strings are modelled as lists of characters (type Str below); the
JavaScript string operations used by the code (split, includes,
startsWith, substring, trim, join) become the corresponding structural
list operations, and JavaScript Map / Record objects become ordered
association lists with first-occurrence key semantics.
-/

/-- A JavaScript string, modelled as its list of characters. -/
abbrev Str := List Char

/-- PATH_SEPARATOR from src/constants. -/
def sep : Char := '.'

/-- JavaScript String.prototype.split with a single-character separator:
splitting the empty string gives one empty segment, and every occurrence
of the separator starts a new segment. -/
def splitOnChar (c : Char) : Str → List Str
  | [] => [[]]
  | x :: xs =>
    let r := splitOnChar c xs
    if x = c then [] :: r
    else
      match r with
      | [] => [[x]]
      | y :: ys => (x :: y) :: ys

/-- JavaScript Array.prototype.join with the path separator. -/
def joinSep : List Str → Str
  | [] => []
  | [s] => s
  | s :: rest => s ++ sep :: joinSep rest

/-- JavaScript String.prototype.includes for the path separator. -/
def containsSep (s : Str) : Bool := s.contains sep

/-- JavaScript String.prototype.trim. -/
def trimStr (s : Str) : Str :=
  ((s.dropWhile Char.isWhitespace).reverse.dropWhile Char.isWhitespace).reverse

/-- Lookup in an ordered association list (JavaScript Map.get /
record indexing): the first entry with the given key wins. -/
def lookupA {α : Type} : List (Str × α) → Str → Option α
  | [], _ => none
  | (k, v) :: rest, key => if k = key then some v else lookupA rest key

/-- JavaScript Map.set / record assignment: replace the value in place
when the key is present, otherwise append the new entry at the end. -/
def setA {α : Type} : List (Str × α) → Str → α → List (Str × α)
  | [], key, v => [(key, v)]
  | (k, w) :: rest, key, v =>
    if k = key then (k, v) :: rest else (k, w) :: setA rest key v

/-- Apply a function to the value stored at a key, when present. -/
def updateA {α : Type} : List (Str × α) → Str → (α → α) → List (Str × α)
  | [], _, _ => []
  | (k, w) :: rest, key, f =>
    if k = key then (k, f w) :: rest else (k, w) :: updateA rest key f

/-- JavaScript Set.add on an insertion-ordered set of strings. -/
def addField (l : List Str) (x : Str) : List Str :=
  if l.contains x then l else l ++ [x]

/-- The spread of a JavaScript Set into an array with dedup,
keeping first occurrences, as in the schema-path generator. -/
def dedup (l : List Str) : List Str :=
  l.foldl (fun acc x => if acc.contains x then acc else acc ++ [x]) []

/-- SortDirection enum from src/constants (values asc / desc). -/
inductive SortDirection : Type where
  | asc
  | desc
deriving DecidableEq

/-- The TypeScript surface type of a sort direction argument:
either a SortDirection value or one of the enum key names. -/
inductive SortDirectionInput : Type where
  | ascVal
  | descVal
  | ascKey
  | descKey
deriving DecidableEq

/-- Root-level field sets of the schema-path index
(interface SchemaRootFields). -/
structure SchemaRootFields : Type where
  selectable : List Str
  sortable : List Str
deriving DecidableEq

/-- Relation-level path sets of the schema-path index
(interface SchemaRelationFields). -/
structure SchemaRelationFields : Type where
  keys : List Str
  selectable : List Str
  sortable : List Str
deriving DecidableEq

/-- The schema-path index (interface SchemaPaths). -/
structure SchemaPaths : Type where
  relations : SchemaRelationFields
  root : SchemaRootFields
deriving DecidableEq

/-- Node of the relation tree (interface TreeNode). The optional
metadata record carrying sort directives is modelled as an association
list that is empty when the record is absent. -/
inductive TreeNode : Type where
  | mk (path : Str) (fields : List Str)
       (relations : List (Str × TreeNode))
       (metadata : List (Str × List (Str × SortDirection)))

/-- Path of a tree node. -/
def TreeNode.path : TreeNode → Str
  | .mk p _ _ _ => p

/-- Fields of a tree node. -/
def TreeNode.fields : TreeNode → List Str
  | .mk _ fs _ _ => fs

/-- Child relations of a tree node. -/
def TreeNode.relations : TreeNode → List (Str × TreeNode)
  | .mk _ _ rels _ => rels

/-- Metadata of a tree node. -/
def TreeNode.metadata : TreeNode → List (Str × List (Str × SortDirection))
  | .mk _ _ _ md => md

/-- The relation tree: ordered map from root relation name to node. -/
abbrev RelTree := List (Str × TreeNode)

/-- TreeProcessor.createNode. -/
def createNode (p : Str) : TreeNode := .mk p [] [] []

/-- The inner loop of TreeProcessor.constructTreeStructure: walk the
remaining path segments below an existing node, extending the running
path, skipping empty segments, adding the last segment as a field when
the full path is a declared relation field and as a child relation
otherwise, and descending through (or creating) intermediate relation
nodes. -/
def insertParts (sp : SchemaPaths) : TreeNode → Str → List Str → TreeNode
  | node, _, [] => node
  | node, curPath, part :: rest =>
    if part = [] then insertParts sp node curPath rest
    else
      let newPath := curPath ++ sep :: part
      if rest = [] then
        if sp.relations.selectable.contains newPath then
          match node with
          | .mk p fs rels md => .mk p (addField fs part) rels md
        else if (lookupA node.relations part).isSome then node
        else
          match node with
          | .mk p fs rels md => .mk p fs (rels ++ [(part, createNode newPath)]) md
      else
        let child :=
          match lookupA node.relations part with
          | some c => c
          | none => createNode newPath
        let child2 := insertParts sp child newPath rest
        match node with
        | .mk p fs rels md => .mk p fs (setA rels part child2) md

/-- One iteration of TreeProcessor.constructTreeStructure: split the
path, create or reuse the root node, and process the remaining parts. -/
def insertPath (sp : SchemaPaths) (tree : RelTree) (path : Str) : RelTree :=
  match splitOnChar sep path with
  | [] => tree
  | rootKey :: rest =>
    if rootKey = [] then tree
    else
      let tree1 :=
        if (lookupA tree rootKey).isSome then tree
        else tree ++ [(rootKey, createNode rootKey)]
      if rest = [] then tree1
      else
        let root := (lookupA tree1 rootKey).getD (createNode rootKey)
        setA tree1 rootKey (insertParts sp root rootKey rest)

/-- TreeProcessor.constructTreeStructure (Pass 2). -/
def constructTreeStructure (sp : SchemaPaths) (populatePaths : List Str) : RelTree :=
  populatePaths.foldl (insertPath sp) []

/-- The per-path step of TreeProcessor.identifyExplicitFields: a path
containing the separator whose final segment is nonempty and which is a
member of the relation-selectable set records its final segment as an
explicit field of the relation named by the remaining segments. -/
def explicitFieldEntry (sp : SchemaPaths) (param : Str) : Option (Str × Str) :=
  if containsSep param = false then none
  else
    let parts := splitOnChar sep param
    let fieldName := parts.getLastD []
    let relationPath := joinSep parts.dropLast
    if fieldName = [] then none
    else if sp.relations.selectable.contains param then some (relationPath, fieldName)
    else none

/-- One loop iteration of TreeProcessor.identifyExplicitFields: record
the explicit field of the path, creating the per-relation set when it
does not exist yet. -/
def identifyStep (sp : SchemaPaths) (m : List (Str × List Str)) (param : Str) :
    List (Str × List Str) :=
  match explicitFieldEntry sp param with
  | none => m
  | some (rp, fn) =>
    match lookupA m rp with
    | none => m ++ [(rp, addField [] fn)]
    | some s => setA m rp (addField s fn)

/-- TreeProcessor.identifyExplicitFields (Pass 1): the map from relation
path to the set of explicitly requested field names. -/
def identifyExplicitFields (sp : SchemaPaths) (populatePaths : List Str) :
    List (Str × List Str) :=
  populatePaths.foldl (identifyStep sp) []

/-- The field-expansion loop inside TreeProcessor.processNode: add every
relation-selectable path that extends the node path by the separator and
whose remainder contains no further separator. -/
def expandFields (sp : SchemaPaths) (path : Str) (fs : List Str) : List Str :=
  sp.relations.selectable.foldl
    (fun acc fieldPath =>
      if (path ++ [sep]).isPrefixOf fieldPath then
        let fieldName := fieldPath.drop (path.length + 1)
        if containsSep fieldName = false then addField acc fieldName else acc
      else acc)
    fs

mutual
/-- TreeProcessor.processNode (Pass 3): expand the fields of a relation
that appears bare in the populate list, has no explicit fields recorded
and currently has no fields, then recurse into the children. -/
def processNode (sp : SchemaPaths) (populatePaths : List Str)
    (expl : List (Str × List Str)) : TreeNode → Str → TreeNode
  | .mk p fs rels md, path =>
    let fs2 :=
      if (lookupA expl path).isSome then fs
      else if populatePaths.contains path && fs.isEmpty then expandFields sp path fs
      else fs
    .mk p fs2 (processChildren sp populatePaths expl rels) md

/-- The recursion of TreeProcessor.processNode into the child relations,
each child processed at its own stored path. -/
def processChildren (sp : SchemaPaths) (populatePaths : List Str)
    (expl : List (Str × List Str)) :
    List (Str × TreeNode) → List (Str × TreeNode)
  | [] => []
  | (k, c) :: rest =>
    (k, processNode sp populatePaths expl c c.path) :: processChildren sp populatePaths expl rest
end

/-- TreeProcessor.enrichRelationsWithFields: process every root node,
passing its map key as the path. -/
def enrichRelationsWithFields (sp : SchemaPaths) (populatePaths : List Str)
    (expl : List (Str × List Str)) (t : RelTree) : RelTree :=
  t.map (fun kv => (kv.1, processNode sp populatePaths expl kv.2 kv.1))

/-- TreeProcessor.process: identify explicit fields, construct the tree
structure, then enrich relations with implicit fields. -/
def processTree (sp : SchemaPaths) (populatePaths : List Str) : RelTree :=
  let expl := identifyExplicitFields sp populatePaths
  enrichRelationsWithFields sp populatePaths expl (constructTreeStructure sp populatePaths)

/-- Navigation through the tree along a list of relation keys, as done
by the nested-sort attachment: look up the first key among the roots and
each further key among the relations of the current node. -/
def findNode : RelTree → List Str → Option TreeNode
  | _, [] => none
  | t, k :: rest =>
    match lookupA t k with
    | none => none
    | some n => if rest = [] then some n else findNode n.relations rest

/-- Default value of a missing sort direction (DEFAULT_SORT_DIRECTION)
and normalization of the two enum key names to enum values, as computed
by the isEnumValue branch of compileSortOptions. -/
def resolveDirection : Option SortDirectionInput → SortDirection
  | some .ascVal => .asc
  | some .descVal => .desc
  | some .ascKey => .asc
  | some .descKey => .desc
  | none => .asc

/-- Sort option accepted by the compiler (interface SortOption). -/
structure SortOption : Type where
  field : Str
  direction : Option SortDirectionInput

/-- A sort argument is a single option or an array of options. -/
inductive SortInput : Type where
  | single (o : SortOption)
  | many (os : List SortOption)

/-- Values of the produced structured query: a field-selection record
of booleans, a sort record of directions, or a relation-inclusion
record of nested structured queries. -/
inductive QVal : Type where
  | bools (fs : List (Str × Bool))
  | sorts (fs : List (Str × SortDirection))
  | queries (rs : List (Str × List (Str × QVal)))

/-- The produced structured query (interface StructuredQuery): an
ordered record from key names to query values. -/
abbrev StructuredQuery := List (Str × QVal)

/-- Deep update of the node reached from a node by a list of relation
keys, used to model the in-place mutation done by
processNestedSortField after successful navigation. -/
def updateNodeGo : TreeNode → List Str → (TreeNode → TreeNode) → TreeNode
  | n, [], f => f n
  | .mk p fs rels md, k :: rest, f =>
    .mk p fs (updateA rels k (fun c => updateNodeGo c rest f)) md

/-- Deep update of the node reached from the tree roots by a nonempty
list of relation keys. -/
def updateNodeAt (t : RelTree) (keys : List Str) (f : TreeNode → TreeNode) : RelTree :=
  match keys with
  | [] => t
  | k :: rest => updateA t k (fun n => updateNodeGo n rest f)

/-- The metadata mutation at the end of processNestedSortField: create
the metadata record and its sort sub-record when absent, then assign
the direction under the sort field name. -/
def addSortMeta (sortKey sortField : Str) (d : SortDirection) (n : TreeNode) : TreeNode :=
  match n with
  | .mk p fs rels md =>
    let cur := (lookupA md sortKey).getD []
    .mk p fs rels (setA md sortKey (setA cur sortField d))

/-- StructuredQueryCompiler.processNestedSortField: split the dotted
field path, require at least two segments and nonempty first and last
segments, navigate the tree along every segment except the last, drop
the directive silently when navigation fails or the full path is not
relation-sortable, and otherwise merge the direction into the metadata
of the reached node. -/
def processNestedSortField (sp : SchemaPaths) (fieldPath : Str) (d : SortDirection)
    (tree : RelTree) (sortKey : Str) : RelTree :=
  let parts := splitOnChar sep fieldPath
  if parts.length < 2 then tree
  else
    let path := parts.headD []
    let sortField := parts.getLastD []
    if path = [] || sortField = [] then tree
    else
      match findNode tree parts.dropLast with
      | none => tree
      | some _ =>
        if sp.relations.sortable.contains fieldPath = false then tree
        else updateNodeAt tree parts.dropLast (addSortMeta sortKey sortField d)

/-- One iteration of the loop in compileSortOptions: trim the field,
resolve the direction, treat dotted fields as nested sorts and plain
fields as root sorts validated against the root-sortable set. -/
def compileSortStep (sp : SchemaPaths) (sortKey : Str) :
    RelTree × List (Str × SortDirection) → SortOption → RelTree × List (Str × SortDirection)
  | (t, rso), o =>
    let field := trimStr o.field
    let d := resolveDirection o.direction
    if containsSep field then (processNestedSortField sp field d t sortKey, rso)
    else if sp.root.sortable.contains field then (t, setA rso field d)
    else (t, rso)

/-- StructuredQueryCompiler.compileSortOptions: normalize the argument
to an array, process every option against the tree, and return the
updated tree together with the root sort record (or none when empty). -/
def compileSortOptions (sp : SchemaPaths) (sort : Option SortInput) (sortKey : Str)
    (tree : RelTree) : RelTree × Option StructuredQuery :=
  match sort with
  | none => (tree, none)
  | some si =>
    let sortOptions := match si with | .single o => [o] | .many os => os
    if sortOptions.isEmpty then (tree, none)
    else
      let res := sortOptions.foldl (compileSortStep sp sortKey) (tree, [])
      (res.1, if res.2.isEmpty then none else some [(sortKey, QVal.sorts res.2)])

/-- StructuredQueryCompiler.isValidPath: membership in the
relation-selectable set or the relation-key set. -/
def isValidPath (sp : SchemaPaths) (path : Str) : Bool :=
  sp.relations.selectable.contains path || sp.relations.keys.contains path

/-- StructuredQueryCompiler.filterValidPaths: drop falsy entries, then
keep only valid paths. -/
def filterValidPaths (sp : SchemaPaths) (populate : List Str) : List Str :=
  (populate.filter (fun p => !p.isEmpty)).filter (isValidPath sp)

/-- Behavior option for empty root field selections. -/
inductive EmptyRootFieldsBehavior : Type where
  | leaveEmpty
  | returnAll
deriving DecidableEq

/-- StructuredQueryCompiler.compileRootFields: with no requested fields
and the leaveEmpty behavior return an empty selection record; otherwise
select the requested fields (or all root-selectable fields when none
are requested), trimming each and keeping only root-selectable ones. -/
def compileRootFields (sp : SchemaPaths) (selectableFields : List Str)
    (selectKey : Str) (behavior : EmptyRootFieldsBehavior) : StructuredQuery :=
  if selectableFields.isEmpty && behavior = EmptyRootFieldsBehavior.leaveEmpty then
    [(selectKey, QVal.bools [])]
  else
    let fieldsToSelect := if selectableFields.isEmpty then sp.root.selectable else selectableFields
    let fields := fieldsToSelect.foldl
      (fun acc f =>
        let t := trimStr f
        if sp.root.selectable.contains t then setA acc t true else acc)
      []
    [(selectKey, QVal.bools fields)]

mutual
/-- StructuredQueryCompiler.convertNodeToQuery: emit the selection
record only when the node has fields, copy the metadata entries
verbatim, and emit the inclusion record only when the node has child
relations, recursing into each child. -/
def convertNodeToQuery (selectKey includeKey sortKey : Str) : TreeNode → StructuredQuery
  | .mk _ fs rels md =>
    let fieldsObj := fs.foldl (fun acc f => setA acc f true) []
    let r1 : StructuredQuery :=
      if fieldsObj.isEmpty then [] else [(selectKey, QVal.bools fieldsObj)]
    let r2 := md.foldl (fun acc kv => setA acc kv.1 (QVal.sorts kv.2)) r1
    if rels.isEmpty then r2
    else setA r2 includeKey (QVal.queries (convertRelations selectKey includeKey sortKey rels))

/-- StructuredQueryCompiler.convertNodeRelations: convert every child
node, keeping keys and order. -/
def convertRelations (selectKey includeKey sortKey : Str) :
    List (Str × TreeNode) → List (Str × StructuredQuery)
  | [] => []
  | (k, c) :: rest =>
    (k, convertNodeToQuery selectKey includeKey sortKey c) ::
      convertRelations selectKey includeKey sortKey rest
end

/-- StructuredQueryCompiler.convertTreeToQuery: convert every root
node; emit the inclusion record only when nonempty. -/
def convertTreeToQuery (tree : RelTree) (selectKey includeKey sortKey : Str) : StructuredQuery :=
  let rootRelations := convertRelations selectKey includeKey sortKey tree
  if rootRelations.isEmpty then [] else [(includeKey, QVal.queries rootRelations)]

/-- StructuredQueryCompiler.mergeRootFieldsWithRelations: copy the root
fields, always bind the inclusion key (to an empty record by default),
and override it with the relation query content when present. -/
def mergeRootFieldsWithRelations (rootFields relationQuery : StructuredQuery)
    (includeKey : Str) : StructuredQuery :=
  let base := setA rootFields includeKey (QVal.queries [])
  match lookupA relationQuery includeKey with
  | some v => setA base includeKey v
  | none => base

/-- JavaScript object spread of the second record over the first. -/
def objMerge (a b : StructuredQuery) : StructuredQuery :=
  b.foldl (fun acc kv => setA acc kv.1 kv.2) a

/-- Compile options (interface CompileOptions); absent optional
arguments are modelled with none and resolved to the documented
defaults inside compile. -/
structure CompileOptions : Type where
  populate : List Str
  selectableFields : List Str
  includeKey : Option Str
  selectKey : Option Str
  emptyRootFieldsBehavior : Option EmptyRootFieldsBehavior
  sort : Option SortInput
  sortKey : Option Str

/-- StructuredQueryCompiler.compile: build the root field selection,
filter the populate paths, build the relation tree when any path
survives, attach sort directives, and merge the pieces, returning only
the root fields and root sort when no populate path survives. -/
def compile (sp : SchemaPaths) (o : CompileOptions) : StructuredQuery :=
  let includeKey := o.includeKey.getD "include".data
  let selectKey := o.selectKey.getD "select".data
  let behavior := o.emptyRootFieldsBehavior.getD EmptyRootFieldsBehavior.returnAll
  let sortKey := o.sortKey.getD "orderBy".data
  let rootFields := compileRootFields sp o.selectableFields selectKey behavior
  let validPopulatePaths := filterValidPaths sp o.populate
  let tree := if validPopulatePaths.isEmpty then [] else processTree sp validPopulatePaths
  let sortResult := compileSortOptions sp o.sort sortKey tree
  if validPopulatePaths.isEmpty then objMerge rootFields (sortResult.2.getD [])
  else
    let relationQuery := convertTreeToQuery sortResult.1 selectKey includeKey sortKey
    objMerge (mergeRootFieldsWithRelations rootFields relationQuery includeKey)
      (sortResult.2.getD [])

/-- The durable state of a StructuredQueryCompiler instance: its two
fields are declared readonly and the TreeProcessor instance is
stateless, so the cached schema-path index is the whole state. -/
structure CompilerState : Type where
  schemaPaths : SchemaPaths

/-- One invocation of the compile method on an instance: the method
reads the cached index and never assigns to any instance field, so the
state after the call is the state before it. -/
def compileRun (st : CompilerState) (o : CompileOptions) : StructuredQuery × CompilerState :=
  (compile st.schemaPaths o, st)

/-- A schema declaration (type QuerySchemaDefinition): optional lists
of selectable and sortable field names and a map from relation name to
nested schema. -/
inductive Schema : Type where
  | mk (selectableFields : Option (List Str)) (sortableFields : Option (List Str))
       (populate : List (Str × Schema))

/-- Selectable fields of a schema. -/
def Schema.selectableFields : Schema → Option (List Str)
  | .mk sel _ _ => sel

/-- Sortable fields of a schema. -/
def Schema.sortableFields : Schema → Option (List Str)
  | .mk _ sort _ => sort

/-- Relations of a schema. -/
def Schema.populate : Schema → List (Str × Schema)
  | .mk _ _ pop => pop

/-- Output of the schema-path generator in src/utils
(the flat SchemaPaths interface it is written against). -/
structure SchemaPathsFlat : Type where
  relationFields : List Str
  relationKeys : List Str
  rootFields : List Str
deriving DecidableEq

mutual
/-- generateSchemaPaths from src/utils/generate-schema-paths.ts: root
fields are captured only when the parent path is empty; every relation
contributes its path as a relation key, one path per declared
selectable field, and recursively the keys and fields of its nested
schema; each result list is deduplicated. -/
def generateSchemaPaths : Schema → Str → SchemaPathsFlat
  | .mk sel _ pop, parentPath =>
    let rootFs := if parentPath = [] then sel.getD [] else []
    let rels := genRelations pop parentPath
    { rootFields := dedup rootFs
      relationKeys := dedup rels.1
      relationFields := dedup rels.2 }

/-- The relation loop of generateSchemaPaths, returning the
accumulated relation keys and relation field paths in push order. -/
def genRelations : List (Str × Schema) → Str → List Str × List Str
  | [], _ => ([], [])
  | (rel, rsch) :: rest, parentPath =>
    let relationPath := if parentPath = [] then rel else parentPath ++ sep :: rel
    let fieldPaths := (rsch.selectableFields.getD []).map (fun f => relationPath ++ sep :: f)
    let sub := generateSchemaPaths rsch relationPath
    let restRes := genRelations rest parentPath
    (relationPath :: (sub.relationKeys ++ restRes.1), fieldPaths ++ (sub.relationFields ++ restRes.2))
end

/-- The flat index produced by the generator in src, repackaged in the
nested SchemaPaths shape consumed by the current compiler: the
relation-selectable set is the relationFields list and the
relation-key set is the relationKeys list. -/
def toSchemaPaths (f : SchemaPathsFlat) : SchemaPaths :=
  { relations := { keys := f.relationKeys, selectable := f.relationFields, sortable := [] }
    root := { selectable := f.rootFields, sortable := [] } }

mutual
/-- Modelled from the spec: the relation walk below one schema node of
the updated SchemaPathIndex builder (see buildSchemaPaths). -/
def buildSub : Schema → Str → List Str × List Str × List Str
  | .mk _ _ pop, parentPath => buildRelations pop parentPath

/-- Modelled from the spec: the relation loop of the updated builder,
returning accumulated keys, selectable paths and sortable paths; each
relation contributes its path as a key, one selectable path per
declared field and one sortable path per sortable field (the explicit
sortable list when present, else the selectable list), followed by the
contributions of its nested relations. -/
def buildRelations : List (Str × Schema) → Str → List Str × List Str × List Str
  | [], _ => ([], [], [])
  | (rel, rsch) :: rest, parentPath =>
    let relationPath := if parentPath = [] then rel else parentPath ++ sep :: rel
    let selPaths := (rsch.selectableFields.getD []).map (fun f => relationPath ++ sep :: f)
    let sortPaths :=
      ((rsch.sortableFields.getD (rsch.selectableFields.getD [])).map
        (fun f => relationPath ++ sep :: f))
    let sub := buildSub rsch relationPath
    let restRes := buildRelations rest parentPath
    (relationPath :: (sub.1 ++ restRes.1),
     selPaths ++ (sub.2.1 ++ restRes.2.1),
     sortPaths ++ (sub.2.2 ++ restRes.2.2))
end

/-- Modelled from the spec: the updated SchemaPathIndex builder that
fills the sortable sets of the nested SchemaPaths interface is not
present under src (only the interface and its consumers are). Per
section 4.1 of the spec it walks relation declarations accumulating,
for every relation, its full path into the key set, one selectable
path per declared field, and one sortable path per sortable field
(the explicit sortable list when present, else the selectable list);
root selectable and sortable fields are captured only at depth zero
(root sortable defaulting to root selectable), and all sets are
deduplicated. -/
def buildSchemaPaths : Schema → SchemaPaths
  | .mk sel sort pop =>
    let rels := buildRelations pop []
    { root :=
        { selectable := dedup (sel.getD [])
          sortable := dedup ((sort.getD (sel.getD []))) }
      relations :=
        { keys := dedup rels.1
          selectable := dedup rels.2.1
          sortable := dedup rels.2.2 } }

theorem lookupA_nil {α : Type} (k : Str) : lookupA ([] : List (Str × α)) k = none := rfl

theorem lookupA_cons {α : Type} (k key : Str) (v : α) (rest : List (Str × α)) :
    lookupA ((k, v) :: rest) key = if k = key then some v else lookupA rest key := rfl

theorem lookupA_append {α : Type} (a b : List (Str × α)) (k : Str) :
    lookupA (a ++ b) k = ((lookupA a k).orElse (fun _ => lookupA b k)) := by
  induction a with
  | nil => simp [lookupA, Option.orElse]
  | cons h t ih =>
    cases h with
    | mk k' v =>
      by_cases hk : k' = k
      · simp [lookupA, hk, Option.orElse]
      · simp [lookupA, hk, ih]

theorem lookupA_setA {α : Type} (m : List (Str × α)) (k k' : Str) (v : α) :
    lookupA (setA m k v) k' = if k = k' then some v else lookupA m k' :=
  by
  induction m with
  | nil =>
    by_cases h : k = k' <;> simp [setA, lookupA, h]
  | cons hd t ih =>
    cases hd with
    | mk k0 w =>
      by_cases h0 : k0 = k
      · subst h0
        by_cases h1 : k0 = k' <;> simp [setA, lookupA, h1]
      · by_cases h1 : k0 = k'
        · subst h1
          have hkk : ¬ k = k0 := fun h => h0 h.symm
          simp [setA, lookupA, h0, hkk]
        · simp [setA, lookupA, h0, h1, ih]

theorem mem_setA {α : Type} (m : List (Str × α)) (k : Str) (v : α) (kv : Str × α) :
    kv ∈ setA m k v → kv ∈ m ∨ kv = (k, v) := by
  induction m with
  | nil => intro h; simp [setA] at h; right; exact h
  | cons hd t ih =>
    cases hd with
    | mk k0 w =>
      by_cases h0 : k0 = k
      · subst h0
        intro h
        simp [setA] at h
        rcases h with h | h
        · right; simp [h]
        · left; simp [h]
      · intro h
        simp [setA, h0] at h
        rcases h with h | h
        · left; simp [h]
        · rcases ih h with h2 | h2
          · left; simp [h2]
          · right; exact h2

/-- C3. Path validation keeps an entry exactly when it is a member of
the relation-selectable set or the relation-key set, drops empty
entries silently, and preserves order and multiplicity: the survivors
form the filter of the input by that criterion, hence a sublist of the
input. -/
theorem c3_path_validation (sp : SchemaPaths) (ps : List Str) :
    filterValidPaths sp ps =
      ps.filter (fun p =>
        (!p.isEmpty) &&
          (sp.relations.selectable.contains p || sp.relations.keys.contains p)) ∧
    List.Sublist (filterValidPaths sp ps) ps ∧
    (∀ p, p ∈ filterValidPaths sp ps ↔
      (p ∈ ps ∧ p ≠ [] ∧ (p ∈ sp.relations.selectable ∨ p ∈ sp.relations.keys))) := by
  refine ⟨?_, ?_, ?_⟩
  · rw [filterValidPaths, List.filter_filter]
    apply List.filter_congr
    intro p _
    rw [Bool.and_comm]
    rfl
  · exact List.Sublist.trans (List.filter_sublist _) (List.filter_sublist _)
  · intro p
    rw [filterValidPaths]
    simp only [List.mem_filter, isValidPath, Bool.or_eq_true, Bool.and_eq_true,
      Bool.not_eq_true', List.isEmpty_eq_false, List.elem_iff]
    tauto

/-- C9. Compilation is pure with respect to the instance state: one
invocation leaves the cached schema-path index unchanged, repeating
the same input yields a structurally identical output, and a prior
compilation of any other input does not alter the result. -/
theorem c9_compile_idempotent (st : CompilerState) (o o2 : CompileOptions) :
    (compileRun st o).2 = st ∧
    (compileRun ((compileRun st o).2) o).1 = (compileRun st o).1 ∧
    (compileRun ((compileRun st o2).2) o).1 = (compileRun st o).1 :=
  ⟨rfl, rfl, rfl⟩

theorem compileRootFields_shape (sp : SchemaPaths) (l : List Str) (k : Str)
    (b : EmptyRootFieldsBehavior) :
    ∃ fs, compileRootFields sp l k b = [(k, QVal.bools fs)] := by
  rw [compileRootFields]
  split
  · exact ⟨[], rfl⟩
  · exact ⟨_, rfl⟩

theorem compileSortOptions_snd_shape (sp : SchemaPaths) (s : Option SortInput) (k : Str)
    (t : RelTree) :
    (compileSortOptions sp s k t).2 = none ∨
      ∃ rso, (compileSortOptions sp s k t).2 = some [(k, QVal.sorts rso)] := by
  rw [compileSortOptions.eq_def]
  cases s with
  | none => left; rfl
  | some si =>
    by_cases h : (match si with | .single o => [o] | .many os => os).isEmpty
    · simp only [h]
      left; rfl
    · simp only [h]
      by_cases h2 : ((match si with | .single o => [o] | .many os => os).foldl
          (compileSortStep sp k) (t, [])).2.isEmpty
      · simp only [h2]; left; rfl
      · simp only [h2]; right; exact ⟨_, rfl⟩

/-- C10. When no populate entry survives validation the compiled output
has no inclusion key at all: whenever the configured inclusion key
differs from the select and sort keys, it is unbound in the output, and
every key of the output is the select key or the sort key. -/
theorem c10_no_inclusion_without_valid_populate (sp : SchemaPaths) (o : CompileOptions)
    (hvalid : filterValidPaths sp o.populate = [])
    (hik1 : o.includeKey.getD "include".data ≠ o.selectKey.getD "select".data)
    (hik2 : o.includeKey.getD "include".data ≠ o.sortKey.getD "orderBy".data) :
    lookupA (compile sp o) (o.includeKey.getD "include".data) = none ∧
    ∀ kv ∈ compile sp o,
      kv.1 = o.selectKey.getD "select".data ∨ kv.1 = o.sortKey.getD "orderBy".data := by
  have hcomp : compile sp o =
      objMerge
        (compileRootFields sp o.selectableFields (o.selectKey.getD "select".data)
          (o.emptyRootFieldsBehavior.getD EmptyRootFieldsBehavior.returnAll))
        ((compileSortOptions sp o.sort (o.sortKey.getD "orderBy".data) []).2.getD []) := by
    simp only [compile, hvalid, List.isEmpty_nil, if_true]
  obtain ⟨fs, hrf⟩ := compileRootFields_shape sp o.selectableFields
    (o.selectKey.getD "select".data) (o.emptyRootFieldsBehavior.getD EmptyRootFieldsBehavior.returnAll)
  have hik1' := Ne.symm hik1
  have hik2' := Ne.symm hik2
  rcases compileSortOptions_snd_shape sp o.sort (o.sortKey.getD "orderBy".data) [] with hso | ⟨rso, hso⟩
  · rw [hcomp, hrf, hso]
    constructor
    · simp [objMerge, lookupA, hik1']
    · intro kv hkv
      simp [objMerge] at hkv
      left
      simp [hkv]
  · rw [hcomp, hrf, hso]
    by_cases hks : o.selectKey.getD "select".data = o.sortKey.getD "orderBy".data
    · constructor
      · simp [objMerge, setA, hks, lookupA, hik2']
      · intro kv hkv
        simp [objMerge, setA, hks] at hkv
        right
        simp [hkv]
    · constructor
      · simp [objMerge, setA, hks, lookupA, hik1', hik2']
      · intro kv hkv
        simp [objMerge, setA, hks] at hkv
        rcases hkv with h | h
        · left; simp [h]
        · right; simp [h]

/-- Closed witness for C10 at a concrete schema index and input. -/
theorem c10_no_inclusion_without_valid_populate_witness :
    lookupA
      (compile
        { relations := { keys := ["profile".data], selectable := ["profile.bio".data], sortable := [] }
          root := { selectable := ["id".data], sortable := ["id".data] } }
        { populate := ["garbage".data], selectableFields := ["id".data],
          includeKey := none, selectKey := none, emptyRootFieldsBehavior := none,
          sort := none, sortKey := none })
      "include".data = none := by
  have h := c10_no_inclusion_without_valid_populate
    { relations := { keys := ["profile".data], selectable := ["profile.bio".data], sortable := [] }
      root := { selectable := ["id".data], sortable := ["id".data] } }
    { populate := ["garbage".data], selectableFields := ["id".data],
      includeKey := none, selectKey := none, emptyRootFieldsBehavior := none,
      sort := none, sortKey := none }
    (by decide) (by decide) (by decide)
  exact h.1

theorem rootFold_lookup (sel : List Str) (l : List Str) (acc : List (Str × Bool)) (f : Str)
    (htrim : ∀ g ∈ l, trimStr g = g) :
    (lookupA
        (l.foldl
          (fun acc g =>
            let t := trimStr g
            if sel.contains t then setA acc t true else acc)
          acc) f = some true) ↔
      ((f ∈ l ∧ sel.contains f = true) ∨ lookupA acc f = some true) := by
  induction l generalizing acc with
  | nil => simp
  | cons g l' ih =>
    have hg : trimStr g = g := htrim g (by simp)
    have htrim' : ∀ g' ∈ l', trimStr g' = g' := fun g' hm => htrim g' (by simp [hm])
    by_cases hc : sel.contains g = true
    · rw [List.foldl_cons]
      simp only [hg, hc, if_true]
      rw [ih _ htrim']
      constructor
      · rintro (h | h)
        · exact Or.inl ⟨by simp [h.1], h.2⟩
        · rw [lookupA_setA] at h
          by_cases hgf : g = f
          · exact Or.inl ⟨by simp [hgf], hgf ▸ hc⟩
          · simp [hgf] at h
            exact Or.inr h
      · rintro (⟨hmem, hcf⟩ | h)
        · rcases List.mem_cons.mp hmem with hgf | hmem'
          · right
            rw [lookupA_setA]
            simp [hgf]
          · exact Or.inl ⟨hmem', hcf⟩
        · right
          rw [lookupA_setA]
          split
          · rfl
          · exact h
    · rw [List.foldl_cons]
      simp only [hg, hc, if_false]
      rw [ih _ htrim']
      constructor
      · rintro (h | h)
        · exact Or.inl ⟨by simp [h.1], h.2⟩
        · exact Or.inr h
      · rintro (⟨hmem, hcf⟩ | h)
        · rcases List.mem_cons.mp hmem with hgf | hmem'
          · exact absurd (hgf ▸ hcf) hc
          · exact Or.inl ⟨hmem', hcf⟩
        · exact Or.inr h

theorem lookupA_mergeRootFields (rf rq : StructuredQuery) (ik k : Str) (hk : ik ≠ k) :
    lookupA (mergeRootFieldsWithRelations rf rq ik) k = lookupA rf k := by
  rw [mergeRootFieldsWithRelations]
  cases h : lookupA rq ik with
  | none => simp [lookupA_setA, hk]
  | some v => simp [lookupA_setA, hk]

theorem objMerge_nil (a : StructuredQuery) : objMerge a [] = a := rfl

/-- C7. With an empty root field request, the returnAll behavior (also
the default when the option is omitted) selects every root-selectable
field of the schema, while leaveEmpty yields an empty selection record
under the configured select key; stated for select keys distinct from
the inclusion key and trim-invariant schema field names. -/
theorem c7_empty_root_fields_behavior (sp : SchemaPaths) (o : CompileOptions)
    (hsel : o.selectableFields = [])
    (hsort : o.sort = none)
    (hik : o.selectKey.getD "select".data ≠ o.includeKey.getD "include".data)
    (htrim : ∀ f ∈ sp.root.selectable, trimStr f = f) :
    (o.emptyRootFieldsBehavior.getD EmptyRootFieldsBehavior.returnAll =
        EmptyRootFieldsBehavior.returnAll →
      ∃ fs, lookupA (compile sp o) (o.selectKey.getD "select".data) = some (QVal.bools fs) ∧
        ∀ f, lookupA fs f = some true ↔ f ∈ sp.root.selectable) ∧
    (o.emptyRootFieldsBehavior.getD EmptyRootFieldsBehavior.returnAll =
        EmptyRootFieldsBehavior.leaveEmpty →
      lookupA (compile sp o) (o.selectKey.getD "select".data) = some (QVal.bools [])) := by
  have hlook : lookupA (compile sp o) (o.selectKey.getD "select".data) =
      lookupA
        (compileRootFields sp o.selectableFields (o.selectKey.getD "select".data)
          (o.emptyRootFieldsBehavior.getD EmptyRootFieldsBehavior.returnAll))
        (o.selectKey.getD "select".data) := by
    cases hv : (filterValidPaths sp o.populate).isEmpty with
    | true =>
      simp only [compile, hsort, compileSortOptions, Option.getD_none, hv, if_true,
        objMerge_nil]
    | false =>
      simp only [compile, hsort, compileSortOptions, Option.getD_none, hv,
        Bool.false_eq_true, if_false, objMerge_nil]
      rw [lookupA_mergeRootFields _ _ _ _ (Ne.symm hik)]
  constructor
  · intro hb
    rw [hlook, hsel, hb]
    refine ⟨sp.root.selectable.foldl
      (fun acc f =>
        let t := trimStr f
        if sp.root.selectable.contains t then setA acc t true else acc) [], ?_, ?_⟩
    · simp [compileRootFields, lookupA_cons]
    · intro f
      rw [rootFold_lookup sp.root.selectable sp.root.selectable [] f htrim]
      simp only [lookupA_nil]
      constructor
      · rintro (h | h)
        · exact h.1
        · cases h
      · intro h
        exact Or.inl ⟨h, List.elem_iff.mpr h⟩
  · intro hb
    rw [hlook, hsel, hb]
    simp [compileRootFields, lookupA_cons]
/-- Closed witness for C7 at a concrete schema index: with returnAll
both root-selectable fields are selected. -/
theorem c7_empty_root_fields_behavior_witness :
    ∃ fs, lookupA
        (compile
          { relations := { keys := [], selectable := [], sortable := [] }
            root := { selectable := ["id".data, "name".data], sortable := [] } }
          { populate := [], selectableFields := [],
            includeKey := none, selectKey := none, emptyRootFieldsBehavior := none,
            sort := none, sortKey := none })
        "select".data = some (QVal.bools fs) ∧
      ∀ f, lookupA fs f = some true ↔ f ∈ ["id".data, "name".data] := by
  have h := c7_empty_root_fields_behavior
    { relations := { keys := [], selectable := [], sortable := [] }
      root := { selectable := ["id".data, "name".data], sortable := [] } }
    { populate := [], selectableFields := [],
      includeKey := none, selectKey := none, emptyRootFieldsBehavior := none,
      sort := none, sortKey := none }
    rfl rfl (by decide) (by decide)
  exact h.1 rfl

/-- C6. A nested sort directive whose relation chain does not fully
resolve to existing tree nodes is silently dropped, leaving the tree
unchanged and creating no node; in particular, compiling with an empty
populate list and a single dotted sort request returns only the root
field selection: no inclusion key and no sort metadata anywhere. -/
theorem c6_unpopulated_sort_dropped (sp : SchemaPaths) (fp : Str) (d : SortDirection)
    (t : RelTree) (sk : Str) (o : CompileOptions) (f : Str) (dir : Option SortDirectionInput)
    (h2 : 2 ≤ (splitOnChar sep fp).length)
    (hnav : findNode t (splitOnChar sep fp).dropLast = none)
    (hpop : o.populate = [])
    (hsort : o.sort = some (SortInput.single { field := f, direction := dir }))
    (hdot : containsSep (trimStr f) = true) :
    processNestedSortField sp fp d t sk = t ∧
    ∃ fs, compile sp o = [(o.selectKey.getD "select".data, QVal.bools fs)] := by
  constructor
  · rw [processNestedSortField]
    have hlt : ¬ (splitOnChar sep fp).length < 2 := by omega
    simp only [hlt, if_false]
    split
    · rfl
    · simp only [hnav]
  · have hval : filterValidPaths sp o.populate = [] := by rw [hpop]; rfl
    obtain ⟨fs, hrf⟩ := compileRootFields_shape sp o.selectableFields
      (o.selectKey.getD "select".data)
      (o.emptyRootFieldsBehavior.getD EmptyRootFieldsBehavior.returnAll)
    refine ⟨fs, ?_⟩
    simp only [compile, hval, List.isEmpty_nil, if_true, hsort, compileSortOptions]
    simp only [List.isEmpty_cons, Bool.false_eq_true, if_false, List.foldl_cons,
      List.foldl_nil, compileSortStep, hdot, if_true]
    simp only [List.isEmpty_nil, if_true, Option.getD_none, objMerge_nil]
    exact hrf

/-- Closed witness for C6: a nested sort on an unpopulated relation
leaves the empty tree unchanged, and a compile call with an empty
populate list and that sort yields only the root selection. -/
theorem c6_unpopulated_sort_dropped_witness :
    processNestedSortField
      { relations := { keys := ["posts".data], selectable := ["posts.title".data],
                       sortable := ["posts.title".data] }
        root := { selectable := ["id".data], sortable := ["id".data] } }
      "posts.title".data SortDirection.asc [] "orderBy".data = [] ∧
    ∃ fs, compile
      { relations := { keys := ["posts".data], selectable := ["posts.title".data],
                       sortable := ["posts.title".data] }
        root := { selectable := ["id".data], sortable := ["id".data] } }
      { populate := [], selectableFields := ["id".data],
        includeKey := none, selectKey := none, emptyRootFieldsBehavior := none,
        sort := some (SortInput.single { field := "posts.title".data, direction := none }),
        sortKey := none } = [("select".data, QVal.bools fs)] :=
  c6_unpopulated_sort_dropped
    { relations := { keys := ["posts".data], selectable := ["posts.title".data],
                     sortable := ["posts.title".data] }
      root := { selectable := ["id".data], sortable := ["id".data] } }
    "posts.title".data SortDirection.asc [] "orderBy".data
    { populate := [], selectableFields := ["id".data],
      includeKey := none, selectKey := none, emptyRootFieldsBehavior := none,
      sort := some (SortInput.single { field := "posts.title".data, direction := none }),
      sortKey := none }
    "posts.title".data none (by decide) rfl rfl rfl (by decide)

mutual
/-- Strict emptiness check on a structured query: no selection record
is empty and no inclusion record is empty, recursively. -/
def qStrict : List (Str × QVal) → Bool
  | [] => true
  | (_, v) :: rest => vStrict v && qStrict rest

/-- Strictness of one query value: selection records must be nonempty,
sort records are unrestricted, inclusion records must be nonempty with
strict children. -/
def vStrict : QVal → Bool
  | .bools fs => !fs.isEmpty
  | .sorts _ => true
  | .queries rs => (!rs.isEmpty) && rsStrict rs

/-- Strictness of the children of an inclusion record. -/
def rsStrict : List (Str × List (Str × QVal)) → Bool
  | [] => true
  | (_, sub) :: rest => qStrict sub && rsStrict rest
end

/-- The property claimed of compiled outputs with at least one valid
populate path: the inclusion key is bound at the top level to an
inclusion record (possibly empty) with strict children, and every
other entry anywhere is strict - selection records emitted only when
nonempty, inclusion records only when nonempty - except that when
exemptTopSelect is set the top-level selection record may be empty. -/
def claimNoEmpty (sk ik : Str) (exemptTopSelect : Bool) (q : StructuredQuery) : Bool :=
  (match lookupA q ik with
   | some (QVal.queries _) => true
   | _ => false) &&
  q.all (fun kv =>
    if kv.1 = ik then
      match kv.2 with
      | QVal.queries rs => rsStrict rs
      | _ => false
    else if exemptTopSelect then
      if kv.1 = sk then
        match kv.2 with
        | QVal.bools _ => true
        | v => vStrict v
      else vStrict kv.2
    else vStrict kv.2)

theorem qStrict_setA (q : List (Str × QVal)) (k : Str) (v : QVal)
    (hq : qStrict q = true) (hv : vStrict v = true) : qStrict (setA q k v) = true := by
  induction q with
  | nil => simp [setA, qStrict, hv]
  | cons hd t ih =>
    cases hd with
    | mk k0 w =>
      rw [qStrict] at hq
      rcases Bool.and_eq_true_iff.mp hq with ⟨hw, ht⟩
      by_cases h0 : k0 = k
      · simp [setA, h0, qStrict, hv, ht]
      · simp [setA, h0, qStrict, hw, ih ht]

theorem qStrict_foldmd (md : List (Str × List (Str × SortDirection)))
    (acc : List (Str × QVal)) (hq : qStrict acc = true) :
    qStrict (md.foldl (fun a kv => setA a kv.1 (QVal.sorts kv.2)) acc) = true := by
  induction md generalizing acc with
  | nil => exact hq
  | cons hd t ih =>
    rw [List.foldl_cons]
    exact ih _ (qStrict_setA _ _ _ hq rfl)

mutual
theorem convert_qStrict (sk ik skt : Str) :
    ∀ n : TreeNode, qStrict (convertNodeToQuery sk ik skt n) = true
  | .mk p fs rels md => by
    rw [convertNodeToQuery]
    by_cases hrels : rels.isEmpty
    · simp only [hrels, if_true]
      apply qStrict_foldmd
      by_cases hf : (fs.foldl (fun acc f => setA acc f true) []).isEmpty
      · simp [hf, qStrict]
      · simp [hf, qStrict, vStrict]
    · simp only [hrels, Bool.false_eq_true, if_false]
      apply qStrict_setA
      · apply qStrict_foldmd
        by_cases hf : (fs.foldl (fun acc f => setA acc f true) []).isEmpty
        · simp [hf, qStrict]
        · simp [hf, qStrict, vStrict]
      · rw [vStrict]
        refine Bool.and_eq_true_iff.mpr ⟨?_, convert_rsStrict sk ik skt rels⟩
        cases rels with
        | nil => simp at hrels
        | cons h t =>
          cases h with
          | mk k c => simp [convertRelations]

theorem convert_rsStrict (sk ik skt : Str) :
    ∀ l : List (Str × TreeNode), rsStrict (convertRelations sk ik skt l) = true
  | [] => rfl
  | (k, c) :: rest => by
    rw [convertRelations, rsStrict]
    exact Bool.and_eq_true_iff.mpr
      ⟨convert_qStrict sk ik skt c, convert_rsStrict sk ik skt rest⟩
end

theorem setA_setA_same {α : Type} (m : List (Str × α)) (k : Str) (a b : α) :
    setA (setA m k a) k b = setA m k b := by
  induction m with
  | nil => simp [setA]
  | cons hd t ih =>
    cases hd with
    | mk k0 w =>
      by_cases h0 : k0 = k
      · simp [setA, h0]
      · simp [setA, h0, ih]

theorem claimNoEmpty_of_entries (sk ik : Str) (q : StructuredQuery)
    (hik : ∃ rs, lookupA q ik = some (QVal.queries rs))
    (hent : ∀ kv ∈ q,
      (kv.1 = ik ∧ ∃ rs, kv.2 = QVal.queries rs ∧ rsStrict rs = true) ∨
      (kv.1 ≠ ik ∧ kv.1 = sk ∧ ∃ fs, kv.2 = QVal.bools fs) ∨
      (kv.1 ≠ ik ∧ vStrict kv.2 = true)) :
    claimNoEmpty sk ik true q = true := by
  rw [claimNoEmpty]
  obtain ⟨rs, hrs⟩ := hik
  rw [hrs]
  refine Bool.and_eq_true_iff.mpr ⟨rfl, ?_⟩
  rw [List.all_eq_true]
  intro kv hkv
  rcases hent kv hkv with ⟨h1, rs2, h2, h3⟩ | ⟨h1, h2, fs, h3⟩ | ⟨h1, h2⟩
  · simp only [h1, if_true, h2, h3]
  · simp only [h1, if_false, if_true, h2, h3]
    rw [if_neg (h2 ▸ h1)]
  · simp only [h1, if_false, if_true]
    by_cases h4 : kv.1 = sk
    · simp only [h4, if_true]
      cases h5 : kv.2 with
      | bools fs => rfl
      | sorts s => rw [h5] at h2; exact h2
      | queries r => rw [h5] at h2; exact h2
    · simp only [h4, if_false]
      exact h2

theorem all_setA {α : Type} (m : List (Str × α)) (k : Str) (v : α) (p : Str × α → Bool)
    (hm : m.all p = true) (hv : p (k, v) = true) : (setA m k v).all p = true := by
  rw [List.all_eq_true] at hm ⊢
  intro kv hkv
  rcases mem_setA _ _ _ _ hkv with h | h
  · exact hm kv h
  · rw [h]; exact hv

theorem claimNoEmpty_setA_sorts (sk ik skt : Str) (q : StructuredQuery)
    (rso : List (Str × SortDirection))
    (hq : claimNoEmpty sk ik true q = true) (hne : skt ≠ ik) :
    claimNoEmpty sk ik true (setA q skt (QVal.sorts rso)) = true := by
  rw [claimNoEmpty] at hq ⊢
  rcases Bool.and_eq_true_iff.mp hq with ⟨h1, h2⟩
  refine Bool.and_eq_true_iff.mpr ⟨?_, ?_⟩
  · rw [lookupA_setA, if_neg hne]
    exact h1
  · refine all_setA _ _ _ _ h2 ?_
    simp only [if_neg hne, if_true]
    by_cases hsk : skt = sk
    · simp [hsk, vStrict]
    · simp [hsk, vStrict]

/-- C4 counterexample: the claim as stated fails on the code. With the
leaveEmpty behavior and one valid populate path the output binds the
select key to an empty selection record at the top level, although the
populate list has a surviving entry, so the claimed absence of empty
selection records outside the top-level inclusion key is violated. -/
theorem c4_no_empty_objects_counterexample :
    filterValidPaths
        { relations := { keys := ["profile".data], selectable := ["profile.bio".data],
                         sortable := [] }
          root := { selectable := ["id".data], sortable := [] } }
        ["profile".data] ≠ [] ∧
    claimNoEmpty "select".data "include".data false
      (compile
        { relations := { keys := ["profile".data], selectable := ["profile.bio".data],
                         sortable := [] }
          root := { selectable := ["id".data], sortable := [] } }
        { populate := ["profile".data], selectableFields := [],
          includeKey := none, selectKey := none,
          emptyRootFieldsBehavior := some EmptyRootFieldsBehavior.leaveEmpty,
          sort := none, sortKey := none }) = false := by
  constructor
  · decide
  · rfl

/-- C4 (amended). For every input with at least one valid populate path
and an inclusion key distinct from the sort key, the output binds the
inclusion key at the top level to an inclusion record (possibly empty),
and no node other than the top-level inclusion key and the top-level
selection record carries an empty selection or inclusion record: a
selection record is emitted for a tree node only when its fields are
nonempty and an inclusion record only when it has child relations. -/
theorem c4_no_empty_objects_amended (sp : SchemaPaths) (o : CompileOptions)
    (hvalid : filterValidPaths sp o.populate ≠ [])
    (hik : o.includeKey.getD "include".data ≠ o.sortKey.getD "orderBy".data) :
    claimNoEmpty (o.selectKey.getD "select".data) (o.includeKey.getD "include".data) true
      (compile sp o) = true := by
  have hv : (filterValidPaths sp o.populate).isEmpty = false :=
    List.isEmpty_eq_false.mpr hvalid
  obtain ⟨fs, hrf⟩ := compileRootFields_shape sp o.selectableFields
    (o.selectKey.getD "select".data)
    (o.emptyRootFieldsBehavior.getD EmptyRootFieldsBehavior.returnAll)
  have hcomp : compile sp o =
      objMerge
        (mergeRootFieldsWithRelations
          (compileRootFields sp o.selectableFields (o.selectKey.getD "select".data)
            (o.emptyRootFieldsBehavior.getD EmptyRootFieldsBehavior.returnAll))
          (convertTreeToQuery
            (compileSortOptions sp o.sort (o.sortKey.getD "orderBy".data)
              (processTree sp (filterValidPaths sp o.populate))).1
            (o.selectKey.getD "select".data) (o.includeKey.getD "include".data)
            (o.sortKey.getD "orderBy".data))
          (o.includeKey.getD "include".data))
        ((compileSortOptions sp o.sort (o.sortKey.getD "orderBy".data)
            (processTree sp (filterValidPaths sp o.populate))).2.getD []) := by
    simp only [compile, hv, Bool.false_eq_true, if_false]
  have hMgen : ∀ (rf RQ : StructuredQuery) (ik : Str),
      mergeRootFieldsWithRelations rf RQ ik =
        setA rf ik ((lookupA RQ ik).getD (QVal.queries [])) := by
    intro rf RQ ik
    rw [mergeRootFieldsWithRelations]
    cases h : lookupA RQ ik with
    | none => rfl
    | some v => simp only [Option.getD_some, setA_setA_same]
  have hRQ : ∃ RS, rsStrict RS = true ∧
      (lookupA
          (convertTreeToQuery
            (compileSortOptions sp o.sort (o.sortKey.getD "orderBy".data)
              (processTree sp (filterValidPaths sp o.populate))).1
            (o.selectKey.getD "select".data) (o.includeKey.getD "include".data)
            (o.sortKey.getD "orderBy".data))
          (o.includeKey.getD "include".data)).getD (QVal.queries []) = QVal.queries RS := by
    rw [convertTreeToQuery]
    by_cases hcr : (convertRelations (o.selectKey.getD "select".data)
        (o.includeKey.getD "include".data) (o.sortKey.getD "orderBy".data)
        (compileSortOptions sp o.sort (o.sortKey.getD "orderBy".data)
          (processTree sp (filterValidPaths sp o.populate))).1).isEmpty
    · refine ⟨[], rfl, ?_⟩
      simp only [hcr, if_true, lookupA_nil, Option.getD_none]
    · refine ⟨convertRelations (o.selectKey.getD "select".data)
          (o.includeKey.getD "include".data) (o.sortKey.getD "orderBy".data)
          (compileSortOptions sp o.sort (o.sortKey.getD "orderBy".data)
            (processTree sp (filterValidPaths sp o.populate))).1,
        convert_rsStrict _ _ _ _, ?_⟩
      simp [hcr, lookupA_cons]
  obtain ⟨RS, hRSstrict, hRS⟩ := hRQ
  have hMeq : mergeRootFieldsWithRelations
      (compileRootFields sp o.selectableFields (o.selectKey.getD "select".data)
        (o.emptyRootFieldsBehavior.getD EmptyRootFieldsBehavior.returnAll))
      (convertTreeToQuery
        (compileSortOptions sp o.sort (o.sortKey.getD "orderBy".data)
          (processTree sp (filterValidPaths sp o.populate))).1
        (o.selectKey.getD "select".data) (o.includeKey.getD "include".data)
        (o.sortKey.getD "orderBy".data))
      (o.includeKey.getD "include".data) =
      setA [(o.selectKey.getD "select".data, QVal.bools fs)]
        (o.includeKey.getD "include".data) (QVal.queries RS) := by
    rw [hMgen, hrf, hRS]
  have hMok : claimNoEmpty (o.selectKey.getD "select".data)
      (o.includeKey.getD "include".data) true
      (setA [(o.selectKey.getD "select".data, QVal.bools fs)]
        (o.includeKey.getD "include".data) (QVal.queries RS)) = true := by
    by_cases hski : o.selectKey.getD "select".data = o.includeKey.getD "include".data
    · have heq : setA [(o.selectKey.getD "select".data, QVal.bools fs)]
          (o.includeKey.getD "include".data) (QVal.queries RS) =
          [(o.selectKey.getD "select".data, QVal.queries RS)] := by
        simp [setA, hski]
      rw [heq]
      apply claimNoEmpty_of_entries
      · exact ⟨RS, by rw [lookupA_cons, if_pos hski]⟩
      · intro kv hkv
        simp only [List.mem_singleton] at hkv
        left
        rw [hkv]
        exact ⟨hski, RS, rfl, hRSstrict⟩
    · have heq : setA [(o.selectKey.getD "select".data, QVal.bools fs)]
          (o.includeKey.getD "include".data) (QVal.queries RS) =
          [(o.selectKey.getD "select".data, QVal.bools fs),
           (o.includeKey.getD "include".data, QVal.queries RS)] := by
        simp [setA, hski]
      rw [heq]
      apply claimNoEmpty_of_entries
      · refine ⟨RS, ?_⟩
        rw [lookupA_cons, if_neg hski, lookupA_cons, if_pos rfl]
      · intro kv hkv
        rcases List.mem_cons.mp hkv with h | h
        · right; left
          rw [h]
          exact ⟨hski, rfl, fs, rfl⟩
        · simp only [List.mem_singleton] at h
          left
          rw [h]
          exact ⟨rfl, RS, rfl, hRSstrict⟩
  rw [hcomp, hMeq]
  rcases compileSortOptions_snd_shape sp o.sort (o.sortKey.getD "orderBy".data)
      (processTree sp (filterValidPaths sp o.populate)) with hS | ⟨rso, hS⟩
  · rw [hS]
    exact hMok
  · rw [hS]
    simp only [Option.getD_some]
    have hob : objMerge
        (setA [(o.selectKey.getD "select".data, QVal.bools fs)]
          (o.includeKey.getD "include".data) (QVal.queries RS))
        [(o.sortKey.getD "orderBy".data, QVal.sorts rso)] =
        setA (setA [(o.selectKey.getD "select".data, QVal.bools fs)]
          (o.includeKey.getD "include".data) (QVal.queries RS))
          (o.sortKey.getD "orderBy".data) (QVal.sorts rso) := rfl
    rw [hob]
    exact claimNoEmpty_setA_sorts _ _ _ _ _ hMok (Ne.symm hik)

/-- Closed witness for the amended C4 at a concrete schema and input. -/
theorem c4_no_empty_objects_amended_witness :
    claimNoEmpty "select".data "include".data true
      (compile
        { relations := { keys := ["profile".data], selectable := ["profile.bio".data],
                         sortable := [] }
          root := { selectable := ["id".data], sortable := [] } }
        { populate := ["profile".data], selectableFields := [],
          includeKey := none, selectKey := none,
          emptyRootFieldsBehavior := some EmptyRootFieldsBehavior.leaveEmpty,
          sort := none, sortKey := none }) = true :=
  c4_no_empty_objects_amended
    { relations := { keys := ["profile".data], selectable := ["profile.bio".data],
                     sortable := [] }
      root := { selectable := ["id".data], sortable := [] } }
    { populate := ["profile".data], selectableFields := [],
      includeKey := none, selectKey := none,
      emptyRootFieldsBehavior := some EmptyRootFieldsBehavior.leaveEmpty,
      sort := none, sortKey := none }
    (by decide) (by decide)

theorem splitOnChar_ne_nil (c : Char) (s : Str) : splitOnChar c s ≠ [] := by
  cases s with
  | nil => simp [splitOnChar]
  | cons x xs =>
    rw [splitOnChar]
    by_cases h : x = c
    · simp [h]
    · simp only [h, if_false]
      cases hr : splitOnChar c xs with
      | nil => simp
      | cons y ys => simp

theorem joinSep_cons_cons (k : Str) (rest : List Str) (hne : rest ≠ []) :
    joinSep (k :: rest) = k ++ sep :: joinSep rest := by
  cases rest with
  | nil => exact absurd rfl hne
  | cons y ys => rfl

theorem joinSep_splitOnChar (s : Str) : joinSep (splitOnChar sep s) = s := by
  induction s with
  | nil => rfl
  | cons x xs ih =>
    rw [splitOnChar]
    by_cases h : x = sep
    · simp only [h, if_true]
      rw [joinSep_cons_cons _ _ (splitOnChar_ne_nil sep xs), ih]
      simp
    · simp only [h, if_false]
      cases hr : splitOnChar sep xs with
      | nil => exact absurd hr (splitOnChar_ne_nil sep xs)
      | cons y ys =>
        rw [hr] at ih
        cases ys with
        | nil =>
          simp only
          rw [joinSep] at ih ⊢
          simp [ih]
        | cons z zs =>
          simp only
          rw [joinSep_cons_cons _ _ (by simp)] at ih
          rw [joinSep_cons_cons _ _ (by simp)]
          simp [ih]

theorem splitOnChar_no_sep (c : Char) (s : Str) :
    ∀ t ∈ splitOnChar c s, t.contains c = false := by
  induction s with
  | nil =>
    intro t ht
    simp [splitOnChar] at ht
    simp [ht, List.contains]
  | cons x xs ih =>
    intro t ht
    rw [splitOnChar] at ht
    by_cases h : x = c
    · simp only [h, if_true] at ht
      rcases List.mem_cons.mp ht with h1 | h1
      · simp [h1, List.contains]
      · exact ih t h1
    · simp only [h, if_false] at ht
      cases hr : splitOnChar c xs with
      | nil => exact absurd hr (splitOnChar_ne_nil c xs)
      | cons y ys =>
        rw [hr] at ht
        simp only at ht
        rcases List.mem_cons.mp ht with h1 | h1
        · have hy : y.contains c = false := ih y (by rw [hr]; simp)
          rw [h1]
          simp only [List.contains_cons, Bool.or_eq_false_iff] at *
          refine ⟨?_, hy⟩
          simp only [beq_eq_false_iff_ne, ne_eq]
          intro hcx
          exact absurd hcx.symm h
        · exact ih t (by rw [hr]; simp [h1])

theorem splitOnChar_of_no_sep (c : Char) (s : Str) (h : s.contains c = false) :
    splitOnChar c s = [s] := by
  induction s with
  | nil => rfl
  | cons x xs ih =>
    simp only [List.contains_cons, Bool.or_eq_false_iff, beq_eq_false_iff_ne, ne_eq] at h
    rw [splitOnChar]
    have hx : ¬ x = c := fun he => h.1 he.symm
    simp only [hx, if_false]
    rw [ih h.2]

theorem containsSep_append_sep (p f : Str) : containsSep (p ++ sep :: f) = true := by
  rw [containsSep]
  exact List.elem_iff.mpr (by simp)

theorem splitOnChar_append (c : Char) (a b : Str) :
    splitOnChar c (a ++ c :: b) = splitOnChar c a ++ splitOnChar c b := by
  induction a with
  | nil => simp [splitOnChar]
  | cons x xs ih =>
    by_cases h : x = c
    · show splitOnChar c (x :: (xs ++ c :: b)) = splitOnChar c (x :: xs) ++ splitOnChar c b
      rw [splitOnChar, ih]
      simp only [h, if_true]
      rw [splitOnChar]
      simp only [h, if_true]
      rfl
    · show splitOnChar c (x :: (xs ++ c :: b)) = splitOnChar c (x :: xs) ++ splitOnChar c b
      rw [splitOnChar, ih]
      simp only [h, if_false]
      cases hr : splitOnChar c xs with
      | nil => exact absurd hr (splitOnChar_ne_nil c xs)
      | cons y ys =>
        rw [splitOnChar]
        simp only [h, if_false, hr]
        rfl

theorem joinSep_append_last (l : List Str) (x : Str) (h : l ≠ []) :
    joinSep (l ++ [x]) = joinSep l ++ sep :: x := by
  induction l with
  | nil => exact absurd rfl h
  | cons y ys ih =>
    cases ys with
    | nil => rfl
    | cons z zs =>
      rw [List.cons_append, joinSep_cons_cons _ _ (by simp),
        joinSep_cons_cons _ _ (by simp), ih (by simp)]
      simp

theorem isPrefixOf_eq_true_iff (a b : Str) : a.isPrefixOf b = true ↔ ∃ t, b = a ++ t := by
  induction a generalizing b with
  | nil => simp [List.isPrefixOf]
  | cons x xs ih =>
    cases b with
    | nil => simp [List.isPrefixOf]
    | cons y ys =>
      rw [List.isPrefixOf]
      constructor
      · intro h
        rcases Bool.and_eq_true_iff.mp h with ⟨h1, h2⟩
        obtain ⟨t, ht⟩ := (ih ys).mp h2
        have hxy : x = y := beq_iff_eq.mp h1
        exact ⟨t, by simp [ht, hxy]⟩
      · rintro ⟨t, ht⟩
        simp only [List.cons_append, List.cons.injEq] at ht
        refine Bool.and_eq_true_iff.mpr ⟨beq_iff_eq.mpr ht.1.symm, (ih ys).mpr ⟨t, ht.2⟩⟩

theorem splitOnChar_two_of_contains (s : Str) (h : containsSep s = true) :
    2 ≤ (splitOnChar sep s).length := by
  by_contra hlt
  push_neg at hlt
  interval_cases hlen : (splitOnChar sep s).length
  · exact absurd (List.length_eq_zero.mp hlen) (splitOnChar_ne_nil sep s)
  · obtain ⟨t, ht⟩ := List.length_eq_one.mp hlen
    have hjs := joinSep_splitOnChar s
    rw [ht] at hjs
    have : t.contains sep = false := splitOnChar_no_sep sep s t (by rw [ht]; simp)
    rw [joinSep] at hjs
    rw [← hjs] at h
    rw [containsSep] at h
    rw [this] at h
    cases h

theorem mem_addField (l : List Str) (x f : Str) :
    f ∈ addField l x ↔ f ∈ l ∨ f = x := by
  rw [addField]
  by_cases h : l.contains x
  · simp only [h, if_true]
    constructor
    · exact Or.inl
    · rintro (h1 | h1)
      · exact h1
      · rw [h1]; exact List.elem_iff.mp h
  · have h2 : ¬ x ∈ l := fun hm => h (List.elem_iff.mpr hm)
    simp [addField, h2]

theorem lookupA_mem {α : Type} (t : List (Str × α)) (k : Str) (n : α)
    (h : lookupA t k = some n) : (k, n) ∈ t := by
  induction t with
  | nil => cases h
  | cons hd rest ih =>
    cases hd with
    | mk k0 v =>
      rw [lookupA_cons] at h
      by_cases h0 : k0 = k
      · rw [if_pos h0] at h
        cases h
        rw [h0]
        exact List.mem_cons_self _ _
      · rw [if_neg h0] at h
        exact List.mem_cons_of_mem _ (ih h)

/-- Invariant of constructed trees: every node stores the dot-joined
path of its position, recursively. -/
inductive NodePathInv : TreeNode → Str → Prop where
  | intro : ∀ (p : Str) (fs : List Str) (rels : List (Str × TreeNode)) (md : List (Str × List (Str × SortDirection))),
      (∀ k c, (k, c) ∈ rels → NodePathInv c (p ++ sep :: k)) →
      NodePathInv (.mk p fs rels md) p

theorem NodePathInv.path_eq {n : TreeNode} {p : Str} (h : NodePathInv n p) : n.path = p := by
  cases h
  rfl

theorem NodePathInv.child {n : TreeNode} {p : Str} (h : NodePathInv n p) :
    ∀ k c, (k, c) ∈ n.relations → NodePathInv c (p ++ sep :: k) := by
  cases h with
  | intro p fs rels md hc => exact hc

/-- Invariant of a tree: every root node stores its key as path,
recursively. -/
def TreeInvP (t : RelTree) : Prop := ∀ k n, (k, n) ∈ t → NodePathInv n k

theorem createNode_inv (p : Str) : NodePathInv (createNode p) p := by
  refine NodePathInv.intro p [] [] [] ?_
  intro k c hc
  cases hc

theorem insertParts_inv (sp : SchemaPaths) (parts : List Str) :
    ∀ (node : TreeNode) (curPath : Str), NodePathInv node curPath →
      NodePathInv (insertParts sp node curPath parts) curPath := by
  induction parts with
  | nil => intro node curPath h; exact h
  | cons part rest ih =>
    intro node curPath h
    rw [insertParts.eq_def]
    by_cases hp : part = []
    · simp only [hp, if_pos rfl]
      exact ih node curPath h
    · simp only [hp, if_false]
      by_cases hrest : rest = []
      · simp only [hrest, if_pos rfl]
        by_cases hsel : sp.relations.selectable.contains (curPath ++ sep :: part)
        · simp only [hsel, if_true]
          cases node with
          | mk p fs rels md =>
            have hpeq : p = curPath := by
              have := h.path_eq
              simp [TreeNode.path] at this
              exact this
            subst hpeq
            exact NodePathInv.intro p _ rels md (fun k c hc => h.child k c hc)
        · simp only [hsel, Bool.false_eq_true, if_false]
          by_cases hlk : (lookupA node.relations part).isSome
          · simp only [hlk, if_true]
            exact h
          · simp only [hlk, Bool.false_eq_true, if_false]
            cases node with
            | mk p fs rels md =>
              have hpeq : p = curPath := by
                have := h.path_eq
                simp [TreeNode.path] at this
                exact this
              subst hpeq
              refine NodePathInv.intro p fs _ md ?_
              intro k c hc
              rcases List.mem_append.mp hc with h1 | h1
              · exact h.child k c h1
              · simp only [List.mem_singleton, Prod.mk.injEq] at h1
                rw [h1.1, h1.2]
                exact createNode_inv _
      · simp only [hrest, if_false]
        cases node with
        | mk p fs rels md =>
          have hpeq : p = curPath := by
            have := h.path_eq
            simp [TreeNode.path] at this
            exact this
          subst hpeq
          refine NodePathInv.intro p fs _ md ?_
          intro k c hc
          rcases mem_setA _ _ _ _ hc with h1 | h1
          · exact h.child k c h1
          · have hchild : NodePathInv
                (match lookupA (TreeNode.mk p fs rels md).relations part with
                  | some c => c
                  | none => createNode (p ++ sep :: part)) (p ++ sep :: part) := by
              cases hl : lookupA (TreeNode.mk p fs rels md).relations part with
              | some c0 =>
                simp only
                exact h.child part c0 (lookupA_mem _ _ _ hl)
              | none =>
                simp only
                exact createNode_inv _
            rw [Prod.mk.injEq] at h1
            rw [h1.1, h1.2]
            exact ih _ _ hchild

theorem insertPath_inv (sp : SchemaPaths) (t : RelTree) (q : Str) (h : TreeInvP t) :
    TreeInvP (insertPath sp t q) := by
  rw [insertPath]
  cases hs : splitOnChar sep q with
  | nil => exact h
  | cons rootKey rest =>
    by_cases hr : rootKey = []
    · simp only [hr, if_pos rfl]
      exact h
    · simp only [hr, if_false]
      have h1 : TreeInvP (if (lookupA t rootKey).isSome then t
          else t ++ [(rootKey, createNode rootKey)]) := by
        by_cases hl : (lookupA t rootKey).isSome
        · simp only [hl, if_true]; exact h
        · simp only [hl, Bool.false_eq_true, if_false]
          intro k n hm
          rcases List.mem_append.mp hm with h2 | h2
          · exact h k n h2
          · simp only [List.mem_singleton, Prod.mk.injEq] at h2
            rw [h2.1, h2.2]
            exact createNode_inv _
      by_cases hrest : rest = []
      · simp only [hrest, if_pos rfl]
        exact h1
      · simp only [hrest, if_false]
        intro k n hm
        rcases mem_setA _ _ _ _ hm with h2 | h2
        · exact h1 k n h2
        · rw [Prod.mk.injEq] at h2
          rw [h2.1, h2.2]
          apply insertParts_inv
          cases hl2 : lookupA (if (lookupA t rootKey).isSome then t
              else t ++ [(rootKey, createNode rootKey)]) rootKey with
          | some r =>
            simp only [Option.getD_some]
            exact h1 rootKey r (lookupA_mem _ _ _ hl2)
          | none =>
            simp only [Option.getD_none]
            exact createNode_inv _

theorem constructTree_inv (sp : SchemaPaths) (paths : List Str) :
    TreeInvP (constructTreeStructure sp paths) := by
  rw [constructTreeStructure]
  have hgen : ∀ (l : List Str) (acc : RelTree), TreeInvP acc → TreeInvP (l.foldl (insertPath sp) acc) := by
    intro l
    induction l with
    | nil => intro acc h; exact h
    | cons q rest ih =>
      intro acc h
      rw [List.foldl_cons]
      exact ih _ (insertPath_inv sp acc q h)
  exact hgen paths [] (fun k n hm => absurd hm (List.not_mem_nil _))

theorem findNode_cons_some (t : RelTree) (k : Str) (rest : List Str) (n : TreeNode)
    (hl : lookupA t k = some n) :
    findNode t (k :: rest) = if rest = [] then some n else findNode n.relations rest := by
  rw [findNode, hl]

theorem lookupA_processChildren (sp : SchemaPaths) (paths : List Str)
    (expl : List (Str × List Str)) (rels : List (Str × TreeNode)) (k : Str) :
    lookupA (processChildren sp paths expl rels) k =
      (lookupA rels k).map (fun c => processNode sp paths expl c c.path) := by
  induction rels with
  | nil => rfl
  | cons hd rest ih =>
    cases hd with
    | mk k0 c =>
      rw [processChildren]
      by_cases h0 : k0 = k
      · simp [lookupA_cons, h0]
      · simp [lookupA_cons, h0, ih]

theorem processNode_relations (sp : SchemaPaths) (paths : List Str)
    (expl : List (Str × List Str)) (n : TreeNode) (path : Str) :
    (processNode sp paths expl n path).relations =
      processChildren sp paths expl n.relations := by
  cases n with
  | mk p fs rels md => rw [processNode]; rfl

theorem findNode_processChildren (sp : SchemaPaths) (paths : List Str)
    (expl : List (Str × List Str)) :
    ∀ (segs : List Str) (rels : List (Str × TreeNode)) (n : TreeNode),
      findNode rels segs = some n →
      findNode (processChildren sp paths expl rels) segs =
        some (processNode sp paths expl n n.path) := by
  intro segs
  induction segs with
  | nil => intro rels n h; cases h
  | cons k rest ih =>
    intro rels n h
    cases hl : lookupA rels k with
    | none => rw [findNode, hl] at h; cases h
    | some c =>
      rw [findNode_cons_some _ _ _ _ hl] at h
      have hl2 : lookupA (processChildren sp paths expl rels) k =
          some (processNode sp paths expl c c.path) := by
        rw [lookupA_processChildren, hl]
        rfl
      rw [findNode_cons_some _ _ _ _ hl2]
      by_cases hrest : rest = []
      · rw [if_pos hrest] at h
        cases h
        rw [if_pos hrest]
      · rw [if_neg hrest] at h
        rw [if_neg hrest, processNode_relations]
        exact ih c.relations n h

theorem lookupA_enrichTree (sp : SchemaPaths) (paths : List Str)
    (expl : List (Str × List Str)) (t : RelTree) (k : Str) :
    lookupA (enrichRelationsWithFields sp paths expl t) k =
      (lookupA t k).map (fun c => processNode sp paths expl c k) := by
  induction t with
  | nil => rfl
  | cons hd rest ih =>
    cases hd with
    | mk k0 c =>
      rw [enrichRelationsWithFields] at *
      by_cases h0 : k0 = k
      · subst h0
        rw [List.map_cons, lookupA_cons, lookupA_cons]
        simp
      · rw [List.map_cons, lookupA_cons, lookupA_cons]
        simp only [h0, if_false]
        exact ih

theorem findNode_enrich (sp : SchemaPaths) (paths : List Str)
    (expl : List (Str × List Str)) (t : RelTree) (segs : List Str) (n : TreeNode)
    (hinv : TreeInvP t) (h : findNode t segs = some n) :
    findNode (enrichRelationsWithFields sp paths expl t) segs =
      some (processNode sp paths expl n n.path) := by
  cases segs with
  | nil => cases h
  | cons k rest =>
    cases hl : lookupA t k with
    | none => rw [findNode, hl] at h; cases h
    | some c =>
      rw [findNode_cons_some _ _ _ _ hl] at h
      have hpc : c.path = k := (hinv k c (lookupA_mem _ _ _ hl)).path_eq
      have hl2 : lookupA (enrichRelationsWithFields sp paths expl t) k =
          some (processNode sp paths expl c k) := by
        rw [lookupA_enrichTree, hl]
        rfl
      rw [findNode_cons_some _ _ _ _ hl2]
      by_cases hrest : rest = []
      · rw [if_pos hrest] at h
        cases h
        rw [if_pos hrest, hpc]
      · rw [if_neg hrest] at h
        rw [if_neg hrest, ← hpc, processNode_relations]
        exact findNode_processChildren sp paths expl rest c.relations n h

theorem findNode_path_in : ∀ (segs : List Str) (m : TreeNode) (p : Str) (n : TreeNode),
    NodePathInv m p → findNode m.relations segs = some n →
    n.path = p ++ sep :: joinSep segs := by
  intro segs
  induction segs with
  | nil => intro m p n _ h; cases h
  | cons k rest ih =>
    intro m p n hinv h
    cases hl : lookupA m.relations k with
    | none => rw [findNode, hl] at h; cases h
    | some c =>
      rw [findNode_cons_some _ _ _ _ hl] at h
      have hc : NodePathInv c (p ++ sep :: k) := hinv.child k c (lookupA_mem _ _ _ hl)
      by_cases hrest : rest = []
      · rw [if_pos hrest] at h
        cases h
        rw [hrest]
        exact hc.path_eq
      · rw [if_neg hrest] at h
        rw [joinSep_cons_cons k rest hrest]
        have := ih c (p ++ sep :: k) n hc h
        rw [this]
        simp

theorem findNode_path (t : RelTree) (segs : List Str) (n : TreeNode)
    (hinv : TreeInvP t) (h : findNode t segs = some n) : n.path = joinSep segs := by
  cases segs with
  | nil => cases h
  | cons k rest =>
    cases hl : lookupA t k with
    | none => rw [findNode, hl] at h; cases h
    | some c =>
      rw [findNode_cons_some _ _ _ _ hl] at h
      have hc : NodePathInv c k := hinv k c (lookupA_mem _ _ _ hl)
      by_cases hrest : rest = []
      · rw [if_pos hrest] at h
        cases h
        rw [hrest]
        exact hc.path_eq
      · rw [if_neg hrest] at h
        rw [joinSep_cons_cons k rest hrest]
        exact findNode_path_in rest c k n hc h

theorem explicitFieldEntry_some (sp : SchemaPaths) (param rp fn : Str)
    (h : explicitFieldEntry sp param = some (rp, fn)) :
    param = rp ++ sep :: fn ∧ fn ≠ [] ∧ containsSep fn = false ∧
      param ∈ sp.relations.selectable := by
  simp only [explicitFieldEntry] at h
  by_cases hc : containsSep param = false
  · rw [if_pos hc] at h; cases h
  · rw [if_neg hc] at h
    have hc2 : containsSep param = true := by
      cases hb : containsSep param
      · exact absurd hb hc
      · rfl
    have hlen := splitOnChar_two_of_contains param hc2
    rcases List.eq_nil_or_concat (splitOnChar sep param) with hnil | ⟨l, x, hdec⟩
    · exact absurd hnil (splitOnChar_ne_nil sep param)
    · rw [List.concat_eq_append] at hdec
      have hlast : (splitOnChar sep param).getLastD [] = x := by
        rw [hdec]; exact List.getLastD_concat _ _ _
      have hdrop : (splitOnChar sep param).dropLast = l := by
        rw [hdec]; exact List.dropLast_concat
      rw [hlast, hdrop] at h
      by_cases hx : x = []
      · rw [if_pos hx] at h; cases h
      · rw [if_neg hx] at h
        by_cases hsel : sp.relations.selectable.contains param
        · rw [if_pos hsel] at h
          have hrp : rp = joinSep l ∧ fn = x := by
            cases h
            exact ⟨rfl, rfl⟩
          have hl_ne : l ≠ [] := by
            intro hl0
            rw [hl0] at hdec
            rw [hdec] at hlen
            simp at hlen
          have hparam : param = joinSep l ++ sep :: x := by
            conv_lhs => rw [← joinSep_splitOnChar param]
            rw [hdec, joinSep_append_last l x hl_ne]
          refine ⟨by rw [hrp.1, hrp.2]; exact hparam, by rw [hrp.2]; exact hx, ?_, ?_⟩
          · rw [hrp.2]
            exact splitOnChar_no_sep sep param x (by rw [hdec]; simp)
          · exact List.elem_iff.mp hsel
        · rw [if_neg hsel] at h; cases h

theorem explicitFieldEntry_of (sp : SchemaPaths) (p fn : Str)
    (hfn : fn ≠ []) (hsep : containsSep fn = false)
    (hsel : (p ++ sep :: fn) ∈ sp.relations.selectable) :
    explicitFieldEntry sp (p ++ sep :: fn) = some (p, fn) := by
  simp only [explicitFieldEntry]
  rw [if_neg (by rw [containsSep_append_sep]; simp)]
  have hsplit : splitOnChar sep (p ++ sep :: fn) = splitOnChar sep p ++ [fn] := by
    rw [splitOnChar_append, splitOnChar_of_no_sep sep fn hsep]
  rw [hsplit]
  rw [List.getLastD_concat, List.dropLast_concat, joinSep_splitOnChar]
  rw [if_neg hfn, if_pos (List.elem_iff.mpr hsel)]

theorem identify_fold_none_iff (sp : SchemaPaths) (l : List Str) :
    ∀ (acc : List (Str × List Str)) (p : Str),
      lookupA (l.foldl (identifyStep sp) acc) p = none ↔
        (lookupA acc p = none ∧
          ∀ param ∈ l, ∀ rp fn, explicitFieldEntry sp param = some (rp, fn) → rp ≠ p) := by
  induction l with
  | nil =>
    intro acc p
    simp
  | cons param l2 ih =>
    intro acc p
    rw [List.foldl_cons, ih]
    rw [List.forall_mem_cons]
    cases hentry : explicitFieldEntry sp param with
    | none =>
      have hstep : identifyStep sp acc param = acc := by
        simp only [identifyStep, hentry]
      rw [hstep]
      constructor
      · rintro ⟨h1, h2⟩
        exact ⟨h1, fun rp fn he => Option.noConfusion he, h2⟩
      · rintro ⟨h1, _, h2⟩
        exact ⟨h1, h2⟩
    | some e =>
      cases e with
      | mk rp fn =>
        have hhead : (∀ rp2 fn2, (some (rp, fn) : Option (Str × Str)) = some (rp2, fn2) → rp2 ≠ p) ↔
            rp ≠ p := by
          constructor
          · intro h
            exact h rp fn rfl
          · intro h rp2 fn2 he
            cases he
            exact h
        cases hlk : lookupA acc rp with
        | none =>
          have hstep : identifyStep sp acc param = acc ++ [(rp, addField [] fn)] := by
            simp only [identifyStep, hentry, hlk]
          rw [hstep, lookupA_append, hhead]
          cases hlp : lookupA acc p with
          | none =>
            simp only [Option.orElse, lookupA_cons, lookupA_nil]
            by_cases hrp : rp = p
            · simp [hrp]
            · simp [hrp]
          | some s =>
            simp [Option.orElse]
        | some s =>
          have hstep : identifyStep sp acc param = setA acc rp (addField s fn) := by
            simp only [identifyStep, hentry, hlk]
          rw [hstep, lookupA_setA, hhead]
          by_cases hrp : rp = p
          · rw [if_pos hrp]
            rw [hrp] at hlk
            simp [hlk]
          · rw [if_neg hrp]
            simp [hrp]

theorem identify_none_iff (sp : SchemaPaths) (paths : List Str) (p : Str) :
    lookupA (identifyExplicitFields sp paths) p = none ↔
      ∀ param ∈ paths, ∀ rp fn, explicitFieldEntry sp param = some (rp, fn) → rp ≠ p := by
  rw [identifyExplicitFields, identify_fold_none_iff]
  simp [lookupA_nil]

theorem prefix_drop_eq (p fp f : Str) :
    ((p ++ [sep]).isPrefixOf fp = true ∧ fp.drop (p.length + 1) = f) ↔
      fp = p ++ sep :: f := by
  constructor
  · rintro ⟨h1, h2⟩
    obtain ⟨t, ht⟩ := (isPrefixOf_eq_true_iff _ _).mp h1
    have hlen : p.length + 1 = (p ++ [sep]).length := by simp
    rw [ht, hlen, List.drop_left] at h2
    rw [ht, h2]
    simp
  · intro h
    have hfp : fp = (p ++ [sep]) ++ f := by rw [h]; simp
    constructor
    · exact (isPrefixOf_eq_true_iff _ _).mpr ⟨f, hfp⟩
    · have hlen : p.length + 1 = (p ++ [sep]).length := by simp
      rw [hfp, hlen, List.drop_left]

theorem mem_expandFields_fold (p : Str) (l : List Str) :
    ∀ (acc : List Str) (f : Str),
      f ∈ l.foldl
        (fun acc fieldPath =>
          if (p ++ [sep]).isPrefixOf fieldPath then
            let fieldName := fieldPath.drop (p.length + 1)
            if containsSep fieldName = false then addField acc fieldName else acc
          else acc)
        acc ↔
      (f ∈ acc ∨ ∃ fp ∈ l, (p ++ [sep]).isPrefixOf fp = true ∧
        containsSep (fp.drop (p.length + 1)) = false ∧ fp.drop (p.length + 1) = f) := by
  induction l with
  | nil =>
    intro acc f
    simp
  | cons fp l2 ih =>
    intro acc f
    rw [List.foldl_cons, ih]
    constructor
    · rintro (hmem | ⟨fp2, hfp2, hcond⟩)
      · by_cases h1 : (p ++ [sep]).isPrefixOf fp
        · simp only [h1, if_true] at hmem
          by_cases h2 : containsSep (fp.drop (p.length + 1)) = false
          · simp only [h2, if_true] at hmem
            rcases (mem_addField _ _ _).mp hmem with h3 | h3
            · exact Or.inl h3
            · exact Or.inr ⟨fp, by simp, h1, h2, h3.symm⟩
          · simp only [h2, if_false] at hmem
            exact Or.inl hmem
        · simp only [h1, Bool.false_eq_true, if_false] at hmem
          exact Or.inl hmem
      · exact Or.inr ⟨fp2, by simp [hfp2], hcond⟩
    · rintro (hmem | ⟨fp2, hfp2, hc1, hc2, hc3⟩)
      · left
        by_cases h1 : (p ++ [sep]).isPrefixOf fp
        · simp only [h1, if_true]
          by_cases h2 : containsSep (fp.drop (p.length + 1)) = false
          · simp only [h2, if_true]
            exact (mem_addField _ _ _).mpr (Or.inl hmem)
          · simp only [h2, if_false]
            exact hmem
        · simp only [h1, Bool.false_eq_true, if_false]
          exact hmem
      · rcases List.mem_cons.mp hfp2 with h3 | h3
        · left
          rw [← h3, hc1]
          simp only [if_true, hc2]
          exact (mem_addField _ _ _).mpr (Or.inr hc3.symm)
        · exact Or.inr ⟨fp2, h3, hc1, hc2, hc3⟩

theorem mem_expandFields (sp : SchemaPaths) (p f : Str) :
    f ∈ expandFields sp p [] ↔
      ((p ++ sep :: f) ∈ sp.relations.selectable ∧ containsSep f = false) := by
  rw [expandFields, mem_expandFields_fold p sp.relations.selectable]
  simp only [List.not_mem_nil, false_or]
  constructor
  · rintro ⟨fp, hfp, h1, h2, h3⟩
    have := (prefix_drop_eq p fp f).mp ⟨h1, h3⟩
    rw [this] at hfp
    rw [h3] at h2
    exact ⟨hfp, h2⟩
  · rintro ⟨h1, h2⟩
    refine ⟨p ++ sep :: f, h1, ?_⟩
    have := (prefix_drop_eq p (p ++ sep :: f) f).mpr rfl
    exact ⟨this.1, by rw [this.2]; exact h2, this.2⟩

theorem processNode_fields_noexpand (sp : SchemaPaths) (paths : List Str)
    (expl : List (Str × List Str)) (n : TreeNode) (path : Str)
    (h : (lookupA expl path).isSome = true) :
    (processNode sp paths expl n path).fields = n.fields := by
  cases n with
  | mk p fs rels md =>
    rw [processNode]
    simp [TreeNode.fields, h]

theorem processNode_fields_expand (sp : SchemaPaths) (paths : List Str)
    (expl : List (Str × List Str)) (n : TreeNode) (path : Str)
    (h1 : lookupA expl path = none) (h2 : paths.contains path = true)
    (h3 : n.fields = []) :
    (processNode sp paths expl n path).fields = expandFields sp path [] := by
  cases n with
  | mk p fs rels md =>
    simp only [TreeNode.fields] at h3
    subst h3
    have hm : path ∈ paths := List.elem_iff.mp h2
    rw [processNode]
    simp [TreeNode.fields, h1, hm]

/-- C1. A relation requested bare (its relation-key path appears
verbatim in the accepted populate list), for which no accepted path is
a declared explicit field of that relation, and whose node has no
fields after structural construction, ends with fields equal to exactly
the direct selectable fields of the relation: the names f with path.f
in the relation-selectable set and f free of the separator. -/
theorem c1_bare_relation_field_expansion (sp : SchemaPaths) (paths : List Str)
    (p : Str) (n : TreeNode)
    (hmem : p ∈ paths)
    (hnoexp : ∀ q ∈ paths, ¬((p ++ [sep]).isPrefixOf q = true ∧
        p.length + 1 < q.length ∧
        containsSep (q.drop (p.length + 1)) = false ∧
        q ∈ sp.relations.selectable))
    (hfind : findNode (constructTreeStructure sp paths) (splitOnChar sep p) = some n)
    (hempty : n.fields = []) :
    ∃ m, findNode (processTree sp paths) (splitOnChar sep p) = some m ∧
      ∀ f, f ∈ m.fields ↔
        ((p ++ sep :: f) ∈ sp.relations.selectable ∧ containsSep f = false) := by
  have hinv := constructTree_inv sp paths
  have hpath : n.path = p := by
    rw [findNode_path _ _ _ hinv hfind, joinSep_splitOnChar]
  have hexplnone : lookupA (identifyExplicitFields sp paths) p = none := by
    rw [identify_none_iff]
    intro param hparam rp fn hentry hrp
    obtain ⟨heq, hfn, hsepf, hselm⟩ := explicitFieldEntry_some sp param rp fn hentry
    subst hrp
    apply hnoexp param hparam
    refine ⟨?_, ?_, ?_, ?_⟩
    · exact (isPrefixOf_eq_true_iff _ _).mpr ⟨fn, by rw [heq]; simp⟩
    · rw [heq]
      have : 0 < fn.length := List.length_pos.mpr hfn
      simp only [List.length_append, List.length_cons]
      omega
    · have hdrop : (rp ++ sep :: fn).drop (rp.length + 1) = fn :=
        ((prefix_drop_eq rp (rp ++ sep :: fn) fn).mpr rfl).2
      rw [heq, hdrop]
      exact hsepf
    · rw [heq] at hselm
      rw [heq]
      exact hselm
  refine ⟨processNode sp paths (identifyExplicitFields sp paths) n n.path, ?_, ?_⟩
  · show findNode (enrichRelationsWithFields sp paths (identifyExplicitFields sp paths)
      (constructTreeStructure sp paths)) (splitOnChar sep p) = _
    exact findNode_enrich sp paths _ _ _ n hinv hfind
  · intro f
    have hfields : (processNode sp paths (identifyExplicitFields sp paths) n n.path).fields =
        expandFields sp p [] := by
      rw [hpath]
      exact processNode_fields_expand _ _ _ _ _ hexplnone (List.elem_iff.mpr hmem) hempty
    rw [hfields, mem_expandFields]

/-- Closed witness for C1: a bare request of the relation profile with
direct selectable fields id and bio expands to exactly those. -/
theorem c1_bare_relation_field_expansion_witness :
    ∃ m, findNode
        (processTree
          { relations := { keys := ["profile".data],
                           selectable := ["profile.id".data, "profile.bio".data],
                           sortable := [] }
            root := { selectable := ["id".data], sortable := [] } }
          ["profile".data])
        (splitOnChar sep "profile".data) = some m ∧
      ∀ f, f ∈ m.fields ↔
        (("profile".data ++ sep :: f) ∈ ["profile.id".data, "profile.bio".data] ∧
          containsSep f = false) :=
  c1_bare_relation_field_expansion
    { relations := { keys := ["profile".data],
                     selectable := ["profile.id".data, "profile.bio".data],
                     sortable := [] }
      root := { selectable := ["id".data], sortable := [] } }
    ["profile".data] "profile".data (createNode "profile".data)
    (by decide) (by decide) rfl rfl

/-- C2. A relation with at least one accepted explicit declared field
never receives implicit full-field expansion, regardless of whether and
where the relation also appears bare: its fields after the expansion
pass equal its fields after structural construction. -/
theorem c2_explicit_field_suppresses_expansion (sp : SchemaPaths) (paths : List Str)
    (p fn : Str) (n m : TreeNode)
    (hq : (p ++ sep :: fn) ∈ paths) (hfn : fn ≠ [])
    (hsepf : containsSep fn = false)
    (hsel : (p ++ sep :: fn) ∈ sp.relations.selectable)
    (hfind : findNode (constructTreeStructure sp paths) (splitOnChar sep p) = some n)
    (hfind2 : findNode (processTree sp paths) (splitOnChar sep p) = some m) :
    m.fields = n.fields := by
  have hinv := constructTree_inv sp paths
  have hpath : n.path = p := by
    rw [findNode_path _ _ _ hinv hfind, joinSep_splitOnChar]
  have henrich : findNode (processTree sp paths) (splitOnChar sep p) =
      some (processNode sp paths (identifyExplicitFields sp paths) n n.path) := by
    show findNode (enrichRelationsWithFields sp paths (identifyExplicitFields sp paths)
      (constructTreeStructure sp paths)) (splitOnChar sep p) = _
    exact findNode_enrich sp paths _ _ _ n hinv hfind
  have hm : m = processNode sp paths (identifyExplicitFields sp paths) n n.path := by
    rw [hfind2] at henrich
    cases henrich
    rfl
  have hsome : (lookupA (identifyExplicitFields sp paths) p).isSome = true := by
    cases hcase : lookupA (identifyExplicitFields sp paths) p with
    | some s => rfl
    | none =>
      rw [identify_none_iff] at hcase
      exact absurd rfl
        (hcase (p ++ sep :: fn) hq p fn (explicitFieldEntry_of sp p fn hfn hsepf hsel))
  rw [hm, hpath, processNode_fields_noexpand _ _ _ _ _ hsome]

/-- Closed witness for C2: with both a bare request and an explicit
field request for profile, the node keeps only the explicit field. -/
theorem c2_explicit_field_suppresses_expansion_witness :
    (TreeNode.mk "profile".data ["bio".data] [] []).fields =
      (TreeNode.mk "profile".data ["bio".data] [] []).fields ∧
    ∀ m n : TreeNode,
      findNode
        (constructTreeStructure
          { relations := { keys := ["profile".data],
                           selectable := ["profile.id".data, "profile.bio".data],
                           sortable := [] }
            root := { selectable := ["id".data], sortable := [] } }
          ["profile".data, "profile.bio".data])
        (splitOnChar sep "profile".data) = some n →
      findNode
        (processTree
          { relations := { keys := ["profile".data],
                           selectable := ["profile.id".data, "profile.bio".data],
                           sortable := [] }
            root := { selectable := ["id".data], sortable := [] } }
          ["profile".data, "profile.bio".data])
        (splitOnChar sep "profile".data) = some m →
      m.fields = n.fields := by
  refine ⟨rfl, ?_⟩
  intro m n h1 h2
  exact c2_explicit_field_suppresses_expansion
    { relations := { keys := ["profile".data],
                     selectable := ["profile.id".data, "profile.bio".data],
                     sortable := [] }
      root := { selectable := ["id".data], sortable := [] } }
    ["profile".data, "profile.bio".data] "profile".data "bio".data n m
    (by decide) (by decide) (by decide) (by decide) h1 h2

theorem mem_dedup (l : List Str) (x : Str) : x ∈ dedup l ↔ x ∈ l := by
  rw [dedup]
  have hgen : ∀ (l2 : List Str) (acc : List Str),
      x ∈ l2.foldl (fun acc y => if acc.contains y then acc else acc ++ [y]) acc ↔
        x ∈ acc ∨ x ∈ l2 := by
    intro l2
    induction l2 with
    | nil => intro acc; simp
    | cons y ys ih =>
      intro acc
      rw [List.foldl_cons, ih]
      by_cases hc : acc.contains y
      · simp only [hc, if_true]
        constructor
        · rintro (h | h)
          · exact Or.inl h
          · exact Or.inr (by simp [h])
        · rintro (h | h)
          · exact Or.inl h
          · rcases List.mem_cons.mp h with h1 | h1
            · exact Or.inl (by rw [h1]; exact List.elem_iff.mp hc)
            · exact Or.inr h1
      · simp only [hc, Bool.false_eq_true, if_false]
        constructor
        · rintro (h | h)
          · rcases List.mem_append.mp h with h1 | h1
            · exact Or.inl h1
            · exact Or.inr (by simp at h1; simp [h1])
          · exact Or.inr (by simp [h])
        · rintro (h | h)
          · exact Or.inl (by simp [h])
          · rcases List.mem_cons.mp h with h1 | h1
            · exact Or.inl (by simp [h1])
            · exact Or.inr h1
  rw [hgen]
  simp

/-- The dot-joined relation path of a relation name below a parent
path, as computed inside the index builders. -/
def joinPath (pp r : Str) : Str := if pp = [] then r else pp ++ sep :: r

/-- The relation reachable at a given dot-joined path below a list of
relation declarations rooted at a parent path. -/
inductive RelAt : List (Str × Schema) → Str → Str → Schema → Prop where
  | here : ∀ (pop : List (Str × Schema)) (parentPath rel : Str) (rsch : Schema),
      (rel, rsch) ∈ pop → RelAt pop parentPath (joinPath parentPath rel) rsch
  | deeper : ∀ (pop : List (Str × Schema)) (parentPath rel : Str) (msch : Schema)
      (path : Str) (rsch : Schema),
      (rel, msch) ∈ pop →
      RelAt msch.populate (joinPath parentPath rel) path rsch →
      RelAt pop parentPath path rsch

theorem buildRelations_cons (rel : Str) (rsch : Schema) (rest : List (Str × Schema))
    (pp : Str) :
    buildRelations ((rel, rsch) :: rest) pp =
      (joinPath pp rel :: ((buildSub rsch (joinPath pp rel)).1 ++ (buildRelations rest pp).1),
       ((rsch.selectableFields.getD []).map (fun f => joinPath pp rel ++ sep :: f)) ++
         ((buildSub rsch (joinPath pp rel)).2.1 ++ (buildRelations rest pp).2.1),
       ((rsch.sortableFields.getD (rsch.selectableFields.getD [])).map
           (fun f => joinPath pp rel ++ sep :: f)) ++
         ((buildSub rsch (joinPath pp rel)).2.2 ++ (buildRelations rest pp).2.2)) := by
  rw [buildRelations, joinPath]

theorem buildRelations_sort_mem (pop : List (Str × Schema)) (pp rel : Str) (msch : Schema)
    (hm : (rel, msch) ∈ pop) :
    (∀ f ∈ msch.sortableFields.getD (msch.selectableFields.getD []),
      (joinPath pp rel ++ sep :: f) ∈ (buildRelations pop pp).2.2) ∧
    (∀ x ∈ (buildSub msch (joinPath pp rel)).2.2, x ∈ (buildRelations pop pp).2.2) := by
  induction pop with
  | nil => cases hm
  | cons hd rest ih =>
    cases hd with
    | mk rel0 rsch0 =>
      rcases List.mem_cons.mp hm with h1 | h1
      · rw [Prod.mk.injEq] at h1
        rw [h1.1, h1.2] at *
        rw [buildRelations_cons]
        constructor
        · intro f hf
          apply List.mem_append.mpr
          left
          exact List.mem_map.mpr ⟨f, hf, rfl⟩
        · intro x hx
          apply List.mem_append.mpr
          right
          exact List.mem_append.mpr (Or.inl hx)
      · have ihr := ih h1
        rw [buildRelations_cons]
        constructor
        · intro f hf
          apply List.mem_append.mpr
          right
          apply List.mem_append.mpr
          right
          exact ihr.1 f hf
        · intro x hx
          apply List.mem_append.mpr
          right
          apply List.mem_append.mpr
          right
          exact ihr.2 x hx

theorem relAt_sort_mem : ∀ (pop : List (Str × Schema)) (pp path : Str) (rsch : Schema),
    RelAt pop pp path rsch →
    ∀ f ∈ rsch.sortableFields.getD (rsch.selectableFields.getD []),
      (path ++ sep :: f) ∈ (buildRelations pop pp).2.2 := by
  intro pop pp path rsch h
  induction h with
  | here pop2 pp2 rel2 rsch2 hm =>
    intro f hf
    exact (buildRelations_sort_mem pop2 pp2 rel2 rsch2 hm).1 f hf
  | deeper pop2 pp2 rel2 msch2 path2 rsch2 hm hrec ih =>
    intro f hf
    have hsub : (path2 ++ sep :: f) ∈ (buildSub msch2 (joinPath pp2 rel2)).2.2 := by
      cases msch2 with
      | mk msel msort mpop =>
        rw [buildSub]
        exact ih f hf
    exact (buildRelations_sort_mem pop2 pp2 rel2 msch2 hm).2 _ hsub

/-- C5. The built index assigns root.sortable the explicit root
sortable set when declared and root.selectable otherwise, and
relations.sortable contains path.f for every relation reachable at a
path and every field f declared sortable there (the explicit sortable
list when present, else its selectable fields). Stated against the
spec-modelled builder buildSchemaPaths. -/
theorem c5_sortable_defaults (s : Schema) :
    ((∀ l, s.sortableFields = some l →
        ∀ f, f ∈ (buildSchemaPaths s).root.sortable ↔ f ∈ l) ∧
      (s.sortableFields = none →
        (buildSchemaPaths s).root.sortable = (buildSchemaPaths s).root.selectable)) ∧
    (∀ p rs f, RelAt s.populate [] p rs →
      f ∈ rs.sortableFields.getD (rs.selectableFields.getD []) →
      (p ++ sep :: f) ∈ (buildSchemaPaths s).relations.sortable) := by
  cases s with
  | mk sel sort pop =>
    refine ⟨⟨?_, ?_⟩, ?_⟩
    · intro l hl f
      simp only [Schema.sortableFields] at hl
      rw [buildSchemaPaths]
      simp only [hl, Option.getD_some]
      exact mem_dedup l f
    · intro hl
      simp only [Schema.sortableFields] at hl
      rw [buildSchemaPaths]
      simp only [hl, Option.getD_none]
    · intro p rs f hrel hf
      rw [buildSchemaPaths]
      simp only
      rw [mem_dedup]
      exact relAt_sort_mem pop [] p rs hrel f hf

/-- Closed witness for C5 at a concrete schema with one relation whose
explicit sortable list is a strict subset of its selectable fields. -/
theorem c5_sortable_defaults_witness :
    ((buildSchemaPaths
        (.mk (some ["id".data, "name".data]) none
          [("profile".data, .mk (some ["id".data, "bio".data]) (some ["id".data]) [])])).root.sortable =
      (buildSchemaPaths
        (.mk (some ["id".data, "name".data]) none
          [("profile".data, .mk (some ["id".data, "bio".data]) (some ["id".data]) [])])).root.selectable) ∧
    ("profile".data ++ sep :: "id".data) ∈
      (buildSchemaPaths
        (.mk (some ["id".data, "name".data]) none
          [("profile".data, .mk (some ["id".data, "bio".data]) (some ["id".data]) [])])).relations.sortable := by
  constructor
  · exact (c5_sortable_defaults _).1.2 rfl
  · refine (c5_sortable_defaults _).2 "profile".data
      (.mk (some ["id".data, "bio".data]) (some ["id".data]) []) "id".data ?_ (by decide)
    have h : joinPath [] "profile".data = "profile".data := rfl
    have := RelAt.here
      [("profile".data, Schema.mk (some ["id".data, "bio".data]) (some ["id".data]) [])]
      [] "profile".data (Schema.mk (some ["id".data, "bio".data]) (some ["id".data]) [])
      (by simp)
    rw [h] at this
    exact this

/-- C8 counterexample: the claim as stated fails on the code. With a
schema declaring a relation a whose selectable field is named x.y (a
field name containing the separator), populating a.x.y creates a tree
node at position a, x whose own path a.x is not a member of the
relation-key set of the built index. -/
theorem c8_tree_prefix_invariant_counterexample :
    (findNode
        (constructTreeStructure
          (toSchemaPaths
            (generateSchemaPaths
              (.mk none none [("a".data, .mk (some ["x.y".data]) none [])]) []))
          (filterValidPaths
            (toSchemaPaths
              (generateSchemaPaths
                (.mk none none [("a".data, .mk (some ["x.y".data]) none [])]) []))
            ["a.x.y".data]))
        ["a".data, "x".data]).isSome = true ∧
    (toSchemaPaths
        (generateSchemaPaths
          (.mk none none [("a".data, .mk (some ["x.y".data]) none [])]) [])).relations.keys.contains
      (joinSep ["a".data, "x".data]) = false := by
  constructor
  · rfl
  · rfl

theorem joinPath_nil_left (r : Str) : joinPath [] r = r := rfl

theorem joinPath_ne_nil (pp r : Str) (h : r ≠ []) : joinPath pp r ≠ [] := by
  rw [joinPath]
  by_cases hpp : pp = []
  · simp [hpp, h]
  · simp [hpp]

theorem joinPath_assoc (pp rel x : Str) (h : rel ≠ []) :
    joinPath (joinPath pp rel) x = joinPath pp (joinPath rel x) := by
  by_cases hpp : pp = []
  · rw [hpp, joinPath_nil_left, joinPath_nil_left]
  · have h1 : joinPath pp rel = pp ++ sep :: rel := by rw [joinPath, if_neg hpp]
    have h2 : joinPath rel x = rel ++ sep :: x := by rw [joinPath, if_neg h]
    rw [h1, h2, joinPath, joinPath, if_neg (by simp : ¬ pp ++ sep :: rel = []), if_neg hpp]
    simp

/-- Well-formed declared name: nonempty and separator-free. -/
def goodName (x : Str) : Bool := (!x.isEmpty) && !containsSep x

mutual
/-- Well-formedness of a schema declaration: every declared field name
and relation name is nonempty and separator-free, recursively. -/
def schemaWF : Schema → Bool
  | .mk sel _ pop => (sel.getD []).all goodName && schemaWFrels pop

/-- Well-formedness of a relation declaration list. -/
def schemaWFrels : List (Str × Schema) → Bool
  | [] => true
  | (rel, rsch) :: rest => goodName rel && schemaWF rsch && schemaWFrels rest
end

theorem genRelations_cons (rel : Str) (rsch : Schema) (rest : List (Str × Schema))
    (pp : Str) :
    genRelations ((rel, rsch) :: rest) pp =
      (joinPath pp rel ::
        ((generateSchemaPaths rsch (joinPath pp rel)).relationKeys ++ (genRelations rest pp).1),
       ((rsch.selectableFields.getD []).map (fun f => joinPath pp rel ++ sep :: f)) ++
         ((generateSchemaPaths rsch (joinPath pp rel)).relationFields ++ (genRelations rest pp).2)) := by
  rw [genRelations, joinPath]

theorem generateSchemaPaths_eq (s : Schema) (pp : Str) :
    (generateSchemaPaths s pp).relationKeys = dedup (genRelations s.populate pp).1 ∧
    (generateSchemaPaths s pp).relationFields = dedup (genRelations s.populate pp).2 := by
  cases s with
  | mk sel sort pop => rw [generateSchemaPaths]; exact ⟨rfl, rfl⟩

theorem joinPath_append_sep (pp a b : Str) :
    joinPath pp a ++ sep :: b = joinPath pp (a ++ sep :: b) := by
  by_cases hpp : pp = []
  · rw [hpp, joinPath_nil_left, joinPath_nil_left]
  · rw [joinPath, if_neg hpp, joinPath, if_neg hpp]
    simp

theorem goodName_ne_nil (x : Str) (h : goodName x = true) : x ≠ [] := by
  rw [goodName] at h
  rcases Bool.and_eq_true_iff.mp h with ⟨h1, _⟩
  simp only [Bool.not_eq_true'] at h1
  exact fun he => by rw [he] at h1; cases h1

theorem goodName_no_sep (x : Str) (h : goodName x = true) : containsSep x = false := by
  rw [goodName] at h
  rcases Bool.and_eq_true_iff.mp h with ⟨_, h2⟩
  simp only [Bool.not_eq_true'] at h2
  exact h2

theorem schemaWF_rels (sel sort : Option (List Str)) (pop : List (Str × Schema))
    (h : schemaWF (.mk sel sort pop) = true) : schemaWFrels pop = true := by
  rw [schemaWF] at h
  exact (Bool.and_eq_true_iff.mp h).2

theorem schemaWFrels_cons (rel : Str) (rsch : Schema) (rest : List (Str × Schema))
    (h : schemaWFrels ((rel, rsch) :: rest) = true) :
    goodName rel = true ∧ schemaWF rsch = true ∧ schemaWFrels rest = true := by
  rw [schemaWFrels] at h
  rcases Bool.and_eq_true_iff.mp h with ⟨h1, h3⟩
  rcases Bool.and_eq_true_iff.mp h1 with ⟨h2, h4⟩
  exact ⟨h2, h4, h3⟩

mutual
theorem shiftS : ∀ (s : Schema) (pp k : Str), schemaWF s = true →
    ((k ∈ (genRelations s.populate pp).1 ↔
        ∃ k0, k0 ∈ (genRelations s.populate []).1 ∧ k = joinPath pp k0) ∧
     (k ∈ (genRelations s.populate pp).2 ↔
        ∃ k0, k0 ∈ (genRelations s.populate []).2 ∧ k = joinPath pp k0))
  | .mk sel sort pop, pp, k, hwf => shiftRels pop pp k (schemaWF_rels sel sort pop hwf)

theorem shiftRels : ∀ (pop : List (Str × Schema)) (pp k : Str), schemaWFrels pop = true →
    ((k ∈ (genRelations pop pp).1 ↔
        ∃ k0, k0 ∈ (genRelations pop []).1 ∧ k = joinPath pp k0) ∧
     (k ∈ (genRelations pop pp).2 ↔
        ∃ k0, k0 ∈ (genRelations pop []).2 ∧ k = joinPath pp k0))
  | [], pp, k, _ => by
    constructor
    · constructor
      · intro h; cases h
      · rintro ⟨k0, h, _⟩; cases h
    · constructor
      · intro h; cases h
      · rintro ⟨k0, h, _⟩; cases h
  | (rel, rsch) :: rest, pp, k, hwf => by
    obtain ⟨hrelg, hrschwf, hrestwf⟩ := schemaWFrels_cons rel rsch rest hwf
    have hrel_ne : rel ≠ [] := goodName_ne_nil rel hrelg
    have hsubPP := shiftS rsch (joinPath pp rel) k hrschwf
    have hsub0 : ∀ k0, (k0 ∈ (genRelations rsch.populate rel).1 ↔
        ∃ k1, k1 ∈ (genRelations rsch.populate []).1 ∧ k0 = joinPath rel k1) ∧
        (k0 ∈ (genRelations rsch.populate rel).2 ↔
        ∃ k1, k1 ∈ (genRelations rsch.populate []).2 ∧ k0 = joinPath rel k1) :=
      fun k0 => shiftS rsch rel k0 hrschwf
    have hrest := shiftRels rest pp k hrestwf
    have hrest0 : ∀ k0, (k0 ∈ (genRelations rest pp).1 ↔
        ∃ k1, k1 ∈ (genRelations rest []).1 ∧ k0 = joinPath pp k1) ∧ True :=
      fun k0 => ⟨(shiftRels rest pp k0 hrestwf).1, trivial⟩
    have hrestF : ∀ k0, k0 ∈ (genRelations rest pp).2 ↔
        ∃ k1, k1 ∈ (genRelations rest []).2 ∧ k0 = joinPath pp k1 :=
      fun k0 => (shiftRels rest pp k0 hrestwf).2
    have hkeysEq := (generateSchemaPaths_eq rsch (joinPath pp rel)).1
    have hfieldsEq := (generateSchemaPaths_eq rsch (joinPath pp rel)).2
    have hkeysEq0 := (generateSchemaPaths_eq rsch rel).1
    have hfieldsEq0 := (generateSchemaPaths_eq rsch rel).2
    rw [genRelations_cons, genRelations_cons]
    rw [joinPath_nil_left] at *
    constructor
    · simp only [List.mem_cons, List.mem_append, hkeysEq, hkeysEq0, mem_dedup]
      constructor
      · rintro (h | h | h)
        · exact ⟨rel, Or.inl rfl, h⟩
        · obtain ⟨k1, hk1, hke⟩ := (hsubPP.1).mp h
          refine ⟨joinPath rel k1, Or.inr (Or.inl ?_), ?_⟩
          · exact (hsub0 (joinPath rel k1)).1.mpr ⟨k1, hk1, rfl⟩
          · rw [hke, joinPath_assoc pp rel k1 hrel_ne]
        · obtain ⟨k0, hk0, hke⟩ := ((hrest0 k).1).mp h
          exact ⟨k0, Or.inr (Or.inr hk0), hke⟩
      · rintro ⟨k0, (h0 | h0 | h0), hke⟩
        · rw [hke, h0]
          exact Or.inl rfl
        · obtain ⟨k1, hk1, hk0e⟩ := ((hsub0 k0).1).mp h0
          refine Or.inr (Or.inl ((hsubPP.1).mpr ⟨k1, hk1, ?_⟩))
          rw [hke, hk0e, joinPath_assoc pp rel k1 hrel_ne]
        · exact Or.inr (Or.inr (((hrest0 k).1).mpr ⟨k0, h0, hke⟩))
    · simp only [List.mem_append, hfieldsEq, hfieldsEq0, mem_dedup]
      constructor
      · rintro (h | h | h)
        · obtain ⟨f, hf, hfe⟩ := List.mem_map.mp h
          refine ⟨rel ++ sep :: f, Or.inl (List.mem_map.mpr ⟨f, hf, rfl⟩), ?_⟩
          rw [← hfe, joinPath_append_sep]
        · obtain ⟨k1, hk1, hke⟩ := (hsubPP.2).mp h
          refine ⟨joinPath rel k1, Or.inr (Or.inl ?_), ?_⟩
          · exact (hsub0 (joinPath rel k1)).2.mpr ⟨k1, hk1, rfl⟩
          · rw [hke, joinPath_assoc pp rel k1 hrel_ne]
        · obtain ⟨k0, hk0, hke⟩ := (hrestF k).mp h
          exact ⟨k0, Or.inr (Or.inr hk0), hke⟩
      · rintro ⟨k0, (h0 | h0 | h0), hke⟩
        · obtain ⟨f, hf, hfe⟩ := List.mem_map.mp h0
          refine Or.inl (List.mem_map.mpr ⟨f, hf, ?_⟩)
          rw [hke, ← hfe, joinPath_append_sep]
        · obtain ⟨k1, hk1, hk0e⟩ := ((hsub0 k0).2).mp h0
          refine Or.inr (Or.inl ((hsubPP.2).mpr ⟨k1, hk1, ?_⟩))
          rw [hke, hk0e, joinPath_assoc pp rel k1 hrel_ne]
        · exact Or.inr (Or.inr ((hrestF k).mpr ⟨k0, h0, hke⟩))
end

theorem schemaWF_sel (sel sort : Option (List Str)) (pop : List (Str × Schema))
    (h : schemaWF (.mk sel sort pop) = true) : ∀ f ∈ sel.getD [], goodName f = true := by
  rw [schemaWF] at h
  have := (Bool.and_eq_true_iff.mp h).1
  rw [List.all_eq_true] at this
  exact this

theorem take_ne_nil_of_ne_nil (l : List Str) (n : Nat) (h : l ≠ []) (hn : 1 ≤ n) :
    l.take n ≠ [] := by
  cases l with
  | nil => exact absurd rfl h
  | cons a l2 =>
    cases n with
    | zero => omega
    | succ m => simp

theorem split_joinPath_good (rel k1 : Str) (hrelg : goodName rel = true) :
    splitOnChar sep (joinPath rel k1) = rel :: splitOnChar sep k1 := by
  rw [joinPath, if_neg (goodName_ne_nil rel hrelg)]
  rw [splitOnChar_append, splitOnChar_of_no_sep sep rel (goodName_no_sep rel hrelg)]
  rfl

theorem mem_genK_cons (rel : Str) (rsch : Schema) (rest : List (Str × Schema)) (k : Str)
    (hrschwf : schemaWF rsch = true) :
    k ∈ (genRelations ((rel, rsch) :: rest) []).1 ↔
      (k = rel ∨ (∃ k1, k1 ∈ (genRelations rsch.populate []).1 ∧ k = joinPath rel k1) ∨
        k ∈ (genRelations rest []).1) := by
  rw [genRelations_cons, joinPath_nil_left]
  simp only [List.mem_cons, List.mem_append,
    (generateSchemaPaths_eq rsch rel).1, mem_dedup]
  rw [(shiftS rsch rel k hrschwf).1]

theorem mem_genF_cons (rel : Str) (rsch : Schema) (rest : List (Str × Schema)) (q : Str)
    (hrschwf : schemaWF rsch = true) :
    q ∈ (genRelations ((rel, rsch) :: rest) []).2 ↔
      ((∃ f, f ∈ rsch.selectableFields.getD [] ∧ q = rel ++ sep :: f) ∨
        (∃ q1, q1 ∈ (genRelations rsch.populate []).2 ∧ q = joinPath rel q1) ∨
        q ∈ (genRelations rest []).2) := by
  rw [genRelations_cons, joinPath_nil_left]
  simp only [List.mem_append, (generateSchemaPaths_eq rsch rel).2, mem_dedup]
  rw [(shiftS rsch rel q hrschwf).2]
  constructor
  · rintro (h | h | h)
    · obtain ⟨f, hf, hfe⟩ := List.mem_map.mp h
      exact Or.inl ⟨f, hf, hfe.symm⟩
    · exact Or.inr (Or.inl h)
    · exact Or.inr (Or.inr h)
  · rintro (⟨f, hf, hfe⟩ | h | h)
    · exact Or.inl (List.mem_map.mpr ⟨f, hf, hfe.symm⟩)
    · exact Or.inr (Or.inl h)
    · exact Or.inr (Or.inr h)

mutual
theorem genFactsS : ∀ (s : Schema), schemaWF s = true →
    ((∀ k, k ∈ (genRelations s.populate []).1 →
        ∀ x ∈ splitOnChar sep k, goodName x = true) ∧
     (∀ k, k ∈ (genRelations s.populate []).1 →
        ∀ j, 1 ≤ j → j ≤ (splitOnChar sep k).length →
          joinSep ((splitOnChar sep k).take j) ∈ (genRelations s.populate []).1) ∧
     (∀ q, q ∈ (genRelations s.populate []).2 →
        ∃ kk fn, kk ∈ (genRelations s.populate []).1 ∧ goodName fn = true ∧
          q = kk ++ sep :: fn))
  | .mk sel sort pop, hwf => genFactsRels pop (schemaWF_rels sel sort pop hwf)

theorem genFactsRels : ∀ (pop : List (Str × Schema)), schemaWFrels pop = true →
    ((∀ k, k ∈ (genRelations pop []).1 →
        ∀ x ∈ splitOnChar sep k, goodName x = true) ∧
     (∀ k, k ∈ (genRelations pop []).1 →
        ∀ j, 1 ≤ j → j ≤ (splitOnChar sep k).length →
          joinSep ((splitOnChar sep k).take j) ∈ (genRelations pop []).1) ∧
     (∀ q, q ∈ (genRelations pop []).2 →
        ∃ kk fn, kk ∈ (genRelations pop []).1 ∧ goodName fn = true ∧
          q = kk ++ sep :: fn))
  | [], _ => by
    refine ⟨?_, ?_, ?_⟩
    · intro k hk; cases hk
    · intro k hk; cases hk
    · intro q hq; cases hq
  | (rel, rsch) :: rest, hwf => by
    obtain ⟨hrelg, hrschwf, hrestwf⟩ := schemaWFrels_cons rel rsch rest hwf
    have hrel_ne : rel ≠ [] := goodName_ne_nil rel hrelg
    obtain ⟨hsubClean, hsubClose, hsubFields⟩ := genFactsS rsch hrschwf
    obtain ⟨hrestClean, hrestClose, hrestFields⟩ := genFactsRels rest hrestwf
    have hsplitrel : splitOnChar sep rel = [rel] :=
      splitOnChar_of_no_sep sep rel (goodName_no_sep rel hrelg)
    refine ⟨?_, ?_, ?_⟩
    · intro k hk x hx
      rcases (mem_genK_cons rel rsch rest k hrschwf).mp hk with h | ⟨k1, hk1, hke⟩ | h
      · rw [h, hsplitrel] at hx
        rcases List.mem_singleton.mp hx with h2
        rw [h2]
        exact hrelg
      · rw [hke, split_joinPath_good rel k1 hrelg] at hx
        rcases List.mem_cons.mp hx with h2 | h2
        · rw [h2]; exact hrelg
        · exact hsubClean k1 hk1 x h2
      · exact hrestClean k h x hx
    · intro k hk j hj1 hj2
      rcases (mem_genK_cons rel rsch rest k hrschwf).mp hk with h | ⟨k1, hk1, hke⟩ | h
      · rw [h, hsplitrel] at hj2 ⊢
        simp only [List.length_singleton] at hj2
        have hj : j = 1 := by omega
        rw [hj]
        exact (mem_genK_cons rel rsch rest rel hrschwf).mpr (Or.inl rfl)
      · rw [hke, split_joinPath_good rel k1 hrelg] at hj2 ⊢
        cases j with
        | zero => omega
        | succ i =>
          cases i with
          | zero =>
            simp only [List.take_succ_cons, List.take_zero]
            exact (mem_genK_cons rel rsch rest (joinSep [rel]) hrschwf).mpr (Or.inl rfl)
          | succ i2 =>
            rw [List.take_succ_cons]
            have hT_ne : (splitOnChar sep k1).take (i2 + 1) ≠ [] :=
              take_ne_nil_of_ne_nil _ _ (splitOnChar_ne_nil sep k1) (by omega)
            rw [joinSep_cons_cons _ _ hT_ne]
            have hmemT : joinSep ((splitOnChar sep k1).take (i2 + 1)) ∈
                (genRelations rsch.populate []).1 := by
              apply hsubClose k1 hk1 (i2 + 1) (by omega)
              simp only [List.length_cons] at hj2
              omega
            refine (mem_genK_cons rel rsch rest _ hrschwf).mpr
              (Or.inr (Or.inl ⟨joinSep ((splitOnChar sep k1).take (i2 + 1)), hmemT, ?_⟩))
            rw [joinPath, if_neg hrel_ne]
      · have := hrestClose k h j hj1 hj2
        exact (mem_genK_cons rel rsch rest _ hrschwf).mpr (Or.inr (Or.inr this))
    · intro q hq
      rcases (mem_genF_cons rel rsch rest q hrschwf).mp hq with ⟨f, hf, hfe⟩ | ⟨q1, hq1, hqe⟩ | h
      · have hfg : goodName f = true := by
          cases rsch with
          | mk rsel rsort rpop =>
            exact schemaWF_sel rsel rsort rpop hrschwf f hf
        exact ⟨rel, f, (mem_genK_cons rel rsch rest rel hrschwf).mpr (Or.inl rfl), hfg, hfe⟩
      · obtain ⟨kk1, fn, hkk1, hfng, hq1e⟩ := hsubFields q1 hq1
        refine ⟨joinPath rel kk1, fn,
          (mem_genK_cons rel rsch rest _ hrschwf).mpr (Or.inr (Or.inl ⟨kk1, hkk1, rfl⟩)),
          hfng, ?_⟩
        rw [hqe, hq1e, joinPath, joinPath, if_neg hrel_ne, if_neg hrel_ne]
        simp
      · obtain ⟨kk, fn, hkk, hfng, hqe⟩ := hrestFields q h
        exact ⟨kk, fn, (mem_genK_cons rel rsch rest kk hrschwf).mpr (Or.inr (Or.inr hkk)),
          hfng, hqe⟩
end

theorem findNode_nil (t : RelTree) : findNode t [] = none := rfl

theorem findNode_singleton (t : RelTree) (k : Str) : findNode t [k] = lookupA t k := by
  cases h : lookupA t k with
  | none => rw [findNode, h]
  | some n => rw [findNode_cons_some t k [] n h, if_pos rfl]

theorem relations_mk (p : Str) (fs : List Str) (rels : List (Str × TreeNode))
    (md : List (Str × List (Str × SortDirection))) :
    (TreeNode.mk p fs rels md).relations = rels := rfl

theorem lookupA_append_single {α : Type} (rels : List (Str × α)) (part k : Str) (v : α)
    (h : lookupA rels part = none) :
    lookupA (rels ++ [(part, v)]) k =
      if part = k then some v else lookupA rels k := by
  rw [lookupA_append]
  cases h2 : lookupA rels k with
  | some w =>
    have hne : ¬ part = k := by
      intro he
      rw [he] at h
      rw [h] at h2
      cases h2
    rw [if_neg hne]
    rfl
  | none =>
    simp [Option.orElse, lookupA_cons, lookupA_nil]

theorem createNode_relations (p : Str) : (createNode p).relations = [] := rfl

theorem insertParts_last_eq (sp : SchemaPaths) (p : Str) (fs : List Str)
    (rels : List (Str × TreeNode)) (md : List (Str × List (Str × SortDirection)))
    (cp part : Str) (hpart : part ≠ []) :
    insertParts sp (.mk p fs rels md) cp [part] =
      (if sp.relations.selectable.contains (cp ++ sep :: part) = true then
        TreeNode.mk p (addField fs part) rels md
      else if (lookupA rels part).isSome = true then TreeNode.mk p fs rels md
      else TreeNode.mk p fs (rels ++ [(part, createNode (cp ++ sep :: part))]) md) := by
  rw [insertParts.eq_def]
  simp only [hpart, if_false]
  rfl

theorem insertParts_mid_eq (sp : SchemaPaths) (p : Str) (fs : List Str)
    (rels : List (Str × TreeNode)) (md : List (Str × List (Str × SortDirection)))
    (cp part : Str) (rest : List Str) (hpart : part ≠ []) (hrest : rest ≠ []) :
    insertParts sp (.mk p fs rels md) cp (part :: rest) =
      TreeNode.mk p fs
        (setA rels part
          (insertParts sp ((lookupA rels part).getD (createNode (cp ++ sep :: part)))
            (cp ++ sep :: part) rest)) md := by
  rw [insertParts.eq_def]
  simp only [hpart, if_false, hrest, relations_mk]
  cases lookupA rels part <;> rfl

theorem findNode_cons_none (t : RelTree) (k : Str) (rest : List Str)
    (hl : lookupA t k = none) : findNode t (k :: rest) = none := by
  rw [findNode, hl]

theorem createNode_eq (p : Str) : createNode p = TreeNode.mk p [] [] [] := rfl

/-- Position characterization for the inner loop of tree construction:
a position exists below the updated node exactly when it existed before
or it is a prefix of the inserted segment list, either a proper prefix
or the full list when the complete path is not a declared relation
field. -/
theorem insertParts_pos (sp : SchemaPaths) :
    ∀ (parts : List Str) (p : Str) (fs : List Str) (rels : List (Str × TreeNode))
      (md : List (Str × List (Str × SortDirection))) (cp : Str) (segs : List Str),
      (∀ x ∈ parts, x ≠ []) → segs ≠ [] →
      ((findNode (insertParts sp (.mk p fs rels md) cp parts).relations segs).isSome = true ↔
        ((findNode rels segs).isSome = true ∨
          ∃ r2, parts = segs ++ r2 ∧
            (r2 ≠ [] ∨ sp.relations.selectable.contains (cp ++ sep :: joinSep parts) = false)))
  | [], p, fs, rels, md, cp, segs, hne, hsegs => by
    have hL : (insertParts sp (.mk p fs rels md) cp []).relations = rels := rfl
    rw [hL]
    constructor
    · exact fun h => Or.inl h
    · rintro (h | ⟨r2, he, _⟩)
      · exact h
      · exact absurd (List.append_eq_nil.mp he.symm).1 hsegs
  | [part], p, fs, rels, md, cp, segs, hne, hsegs => by
    have hpart : part ≠ [] := hne part (List.mem_cons_self part [])
    have hdec : ∀ r2 : List Str, [part] = segs ++ r2 → segs = [part] ∧ r2 = [] := by
      intro r2 he
      cases segs with
      | nil => exact absurd rfl hsegs
      | cons s0 st =>
        simp only [List.cons_append, List.cons.injEq] at he
        obtain ⟨hst, hr2⟩ := List.append_eq_nil.mp he.2.symm
        exact ⟨by rw [he.1, hst], hr2⟩
    have hj : joinSep [part] = part := rfl
    rw [insertParts_last_eq sp p fs rels md cp part hpart]
    by_cases hsel : sp.relations.selectable.contains (cp ++ sep :: part) = true
    · rw [if_pos hsel, relations_mk]
      constructor
      · exact fun h => Or.inl h
      · rintro (h | ⟨r2, he, hc⟩)
        · exact h
        · obtain ⟨hs, hr⟩ := hdec r2 he
          rcases hc with hc | hc
          · exact absurd hr hc
          · rw [hj] at hc
            rw [hc] at hsel
            exact absurd hsel Bool.false_ne_true
    · rw [if_neg hsel]
      have hself : sp.relations.selectable.contains (cp ++ sep :: part) = false := by
        cases hb : sp.relations.selectable.contains (cp ++ sep :: part) with
        | false => rfl
        | true => exact absurd hb hsel
      cases hlk : lookupA rels part with
      | some c =>
        rw [if_pos (Option.isSome_some : (some c).isSome = true), relations_mk]
        constructor
        · exact fun h => Or.inl h
        · rintro (h | ⟨r2, he, _⟩)
          · exact h
          · obtain ⟨hs, _⟩ := hdec r2 he
            rw [hs, findNode_singleton, hlk]
            rfl
      | none =>
        rw [if_neg (by simp : ¬ (none : Option TreeNode).isSome = true), relations_mk]
        cases segs with
        | nil => exact absurd rfl hsegs
        | cons s0 st =>
          have hlap : lookupA (rels ++ [(part, createNode (cp ++ sep :: part))]) s0 =
              if part = s0 then some (createNode (cp ++ sep :: part)) else lookupA rels s0 :=
            lookupA_append_single rels part s0 (createNode (cp ++ sep :: part)) hlk
          by_cases h0 : part = s0
          · rw [if_pos h0] at hlap
            by_cases hst : st = []
            · subst hst
              rw [findNode_cons_some _ _ _ _ hlap, if_pos rfl]
              constructor
              · intro _
                refine Or.inr ⟨[], ?_, Or.inr (by rw [hj]; exact hself)⟩
                rw [← h0]
                rfl
              · intro _
                rfl
            · rw [findNode_cons_some _ _ _ _ hlap, if_neg hst]
              have hcn : findNode (createNode (cp ++ sep :: part)).relations st = none := by
                cases st with
                | nil => rfl
                | cons a t => rfl
              rw [hcn, findNode_cons_none rels s0 st (by rw [← h0]; exact hlk)]
              constructor
              · intro h
                simp at h
              · rintro (h | ⟨r2, he, _⟩)
                · simp at h
                · simp only [List.cons_append, List.cons.injEq] at he
                  obtain ⟨hst2, _⟩ := List.append_eq_nil.mp he.2.symm
                  exact absurd hst2 hst
          · rw [if_neg h0] at hlap
            cases hlk0 : lookupA rels s0 with
            | none =>
              rw [hlk0] at hlap
              rw [findNode_cons_none _ _ _ hlap, findNode_cons_none _ _ _ hlk0]
              constructor
              · intro h
                simp at h
              · rintro (h | ⟨r2, he, _⟩)
                · simp at h
                · simp only [List.cons_append, List.cons.injEq] at he
                  exact absurd he.1 h0
            | some n =>
              rw [hlk0] at hlap
              rw [findNode_cons_some _ _ _ _ hlap, findNode_cons_some _ _ _ _ hlk0]
              constructor
              · exact fun h => Or.inl h
              · rintro (h | ⟨r2, he, _⟩)
                · exact h
                · simp only [List.cons_append, List.cons.injEq] at he
                  exact absurd he.1 h0
  | part :: b :: bs, p, fs, rels, md, cp, segs, hne, hsegs => by
    have hpart : part ≠ [] := hne part (List.mem_cons_self part (b :: bs))
    have hne2 : ∀ x ∈ b :: bs, x ≠ [] := fun x hx => hne x (List.mem_cons_of_mem part hx)
    have hjbb : joinSep (part :: b :: bs) = part ++ sep :: joinSep (b :: bs) := rfl
    have hpath : (cp ++ sep :: part) ++ sep :: joinSep (b :: bs) =
        cp ++ sep :: joinSep (part :: b :: bs) := by
      rw [hjbb]
      simp
    rw [insertParts_mid_eq sp p fs rels md cp part (b :: bs) hpart (List.cons_ne_nil b bs),
      relations_mk]
    cases segs with
    | nil => exact absurd rfl hsegs
    | cons s0 st =>
      by_cases h0 : part = s0
      · subst h0
        have hset := lookupA_setA rels part part
          (insertParts sp ((lookupA rels part).getD (createNode (cp ++ sep :: part)))
            (cp ++ sep :: part) (b :: bs))
        rw [if_pos rfl] at hset
        by_cases hst : st = []
        · subst hst
          rw [findNode_cons_some _ _ _ _ hset, if_pos rfl]
          constructor
          · intro _
            exact Or.inr ⟨b :: bs, rfl, Or.inl (List.cons_ne_nil b bs)⟩
          · intro _
            rfl
        · rw [findNode_cons_some _ _ _ _ hset, if_neg hst]
          cases hlk : lookupA rels part with
          | some c =>
            cases c with
            | mk pc fsc relsc mdc =>
              rw [Option.getD_some, findNode_cons_some _ _ _ _ hlk, if_neg hst, relations_mk,
                insertParts_pos sp (b :: bs) pc fsc relsc mdc (cp ++ sep :: part) st hne2 hst,
                hpath]
              simp only [List.cons_append, List.cons.injEq, eq_self_iff_true, true_and]
          | none =>
            have hfn : findNode ([] : List (Str × TreeNode)) st = none := by
              cases st with
              | nil => rfl
              | cons a t => rfl
            rw [Option.getD_none, createNode_eq, findNode_cons_none _ _ _ hlk,
              insertParts_pos sp (b :: bs) (cp ++ sep :: part) [] [] []
                (cp ++ sep :: part) st hne2 hst,
              hpath, hfn]
            simp only [List.cons_append, List.cons.injEq, eq_self_iff_true, true_and]
      · have hset := lookupA_setA rels part s0
          (insertParts sp ((lookupA rels part).getD (createNode (cp ++ sep :: part)))
            (cp ++ sep :: part) (b :: bs))
        rw [if_neg h0] at hset
        cases hlk0 : lookupA rels s0 with
        | none =>
          rw [hlk0] at hset
          rw [findNode_cons_none _ _ _ hset, findNode_cons_none _ _ _ hlk0]
          constructor
          · intro h
            simp at h
          · rintro (h | ⟨r2, he, _⟩)
            · simp at h
            · simp only [List.cons_append, List.cons.injEq] at he
              exact absurd he.1 h0
        | some n =>
          rw [hlk0] at hset
          rw [findNode_cons_some _ _ _ _ hset, findNode_cons_some _ _ _ _ hlk0]
          constructor
          · exact fun h => Or.inl h
          · rintro (h | ⟨r2, he, _⟩)
            · exact h
            · simp only [List.cons_append, List.cons.injEq] at he
              exact absurd he.1 h0

theorem insertPath_single (sp : SchemaPaths) (tree : RelTree) (q rootKey : Str)
    (hsplit : splitOnChar sep q = [rootKey]) (hroot : rootKey ≠ []) :
    insertPath sp tree q =
      if (lookupA tree rootKey).isSome = true then tree
      else tree ++ [(rootKey, createNode rootKey)] := by
  rw [insertPath.eq_def, hsplit]
  simp only [if_neg hroot, if_true]

theorem insertPath_multi (sp : SchemaPaths) (tree : RelTree) (q rootKey : Str)
    (rest : List Str) (hsplit : splitOnChar sep q = rootKey :: rest)
    (hroot : rootKey ≠ []) (hrest : rest ≠ []) :
    insertPath sp tree q =
      if (lookupA tree rootKey).isSome = true then
        setA tree rootKey
          (insertParts sp ((lookupA tree rootKey).getD (createNode rootKey)) rootKey rest)
      else
        setA (tree ++ [(rootKey, createNode rootKey)]) rootKey
          (insertParts sp (createNode rootKey) rootKey rest) := by
  rw [insertPath.eq_def, hsplit]
  simp only [if_neg hroot, if_neg hrest]
  cases hlk : lookupA tree rootKey with
  | some n => simp [hlk]
  | none =>
    have h1 : lookupA (tree ++ [(rootKey, createNode rootKey)]) rootKey =
        some (createNode rootKey) := by
      rw [lookupA_append_single tree rootKey rootKey (createNode rootKey) hlk, if_pos rfl]
    simp [h1]

/-- Position characterization for one tree-construction iteration:
after inserting a path, a position exists exactly when it existed
before or it is a prefix of the path segment list, a proper prefix,
the whole single-segment list, or the full list when the path is not
a declared relation field. -/
theorem insertPath_pos (sp : SchemaPaths) (tree : RelTree) (q rootKey : Str)
    (rest : List Str) (hsplit : splitOnChar sep q = rootKey :: rest)
    (hroot : rootKey ≠ []) (hrest : ∀ x ∈ rest, x ≠ [])
    (segs : List Str) (hsegs : segs ≠ []) :
    ((findNode (insertPath sp tree q) segs).isSome = true ↔
      ((findNode tree segs).isSome = true ∨
        ∃ r2, rootKey :: rest = segs ++ r2 ∧
          (r2 ≠ [] ∨ rest = [] ∨ sp.relations.selectable.contains q = false))) := by
  cases rest with
  | nil =>
    rw [insertPath_single sp tree q rootKey hsplit hroot]
    cases hlk : lookupA tree rootKey with
    | some n =>
      rw [if_pos (Option.isSome_some : (some n).isSome = true)]
      constructor
      · exact fun h => Or.inl h
      · rintro (h | ⟨r2, he, _⟩)
        · exact h
        · cases segs with
          | nil => exact absurd rfl hsegs
          | cons s0 st =>
            simp only [List.cons_append, List.cons.injEq] at he
            obtain ⟨hst, hr2⟩ := List.append_eq_nil.mp he.2.symm
            rw [hst, findNode_singleton, ← he.1, hlk]
            rfl
    | none =>
      rw [if_neg (by simp : ¬ (none : Option TreeNode).isSome = true)]
      cases segs with
      | nil => exact absurd rfl hsegs
      | cons s0 st =>
        have hlap : lookupA (tree ++ [(rootKey, createNode rootKey)]) s0 =
            if rootKey = s0 then some (createNode rootKey) else lookupA tree s0 :=
          lookupA_append_single tree rootKey s0 (createNode rootKey) hlk
        by_cases h0 : rootKey = s0
        · rw [if_pos h0] at hlap
          by_cases hst : st = []
          · subst hst
            rw [findNode_cons_some _ _ _ _ hlap, if_pos rfl]
            constructor
            · intro _
              refine Or.inr ⟨[], ?_, Or.inr (Or.inl rfl)⟩
              rw [h0]
              rfl
            · intro _
              rfl
          · rw [findNode_cons_some _ _ _ _ hlap, if_neg hst]
            have hcn : findNode (createNode rootKey).relations st = none := by
              cases st with
              | nil => rfl
              | cons a t => rfl
            rw [hcn, findNode_cons_none tree s0 st (by rw [← h0]; exact hlk)]
            constructor
            · intro h
              simp at h
            · rintro (h | ⟨r2, he, _⟩)
              · simp at h
              · simp only [List.cons_append, List.cons.injEq] at he
                obtain ⟨hst2, _⟩ := List.append_eq_nil.mp he.2.symm
                exact absurd hst2 hst
        · rw [if_neg h0] at hlap
          cases hlk0 : lookupA tree s0 with
          | none =>
            rw [hlk0] at hlap
            rw [findNode_cons_none _ _ _ hlap, findNode_cons_none _ _ _ hlk0]
            constructor
            · intro h
              simp at h
            · rintro (h | ⟨r2, he, _⟩)
              · simp at h
              · simp only [List.cons_append, List.cons.injEq] at he
                exact absurd he.1 h0
          | some m =>
            rw [hlk0] at hlap
            rw [findNode_cons_some _ _ _ _ hlap, findNode_cons_some _ _ _ _ hlk0]
            constructor
            · exact fun h => Or.inl h
            · rintro (h | ⟨r2, he, _⟩)
              · exact h
              · simp only [List.cons_append, List.cons.injEq] at he
                exact absurd he.1 h0
  | cons b bs =>
    have hq2 : rootKey ++ sep :: joinSep (b :: bs) = q := by
      rw [← joinSep_splitOnChar q, hsplit]
      rfl
    rw [insertPath_multi sp tree q rootKey (b :: bs) hsplit hroot (List.cons_ne_nil b bs)]
    cases hlk : lookupA tree rootKey with
    | some n =>
      rw [if_pos (Option.isSome_some : (some n).isSome = true), Option.getD_some]
      cases n with
      | mk pn fsn relsn mdn =>
        cases segs with
        | nil => exact absurd rfl hsegs
        | cons s0 st =>
          by_cases h0 : rootKey = s0
          · subst h0
            have hset := lookupA_setA tree rootKey rootKey
              (insertParts sp (TreeNode.mk pn fsn relsn mdn) rootKey (b :: bs))
            rw [if_pos rfl] at hset
            by_cases hst : st = []
            · subst hst
              rw [findNode_cons_some _ _ _ _ hset, if_pos rfl]
              constructor
              · intro _
                exact Or.inr ⟨b :: bs, rfl, Or.inl (List.cons_ne_nil b bs)⟩
              · intro _
                rfl
            · rw [findNode_cons_some _ _ _ _ hset, if_neg hst,
                insertParts_pos sp (b :: bs) pn fsn relsn mdn rootKey st hrest hst,
                findNode_cons_some _ _ _ _ hlk, if_neg hst, relations_mk, hq2]
              constructor
              · rintro (h | ⟨r2, he, hc⟩)
                · exact Or.inl h
                · refine Or.inr ⟨r2, by rw [List.cons_append, he], ?_⟩
                  rcases hc with hc | hc
                  · exact Or.inl hc
                  · exact Or.inr (Or.inr hc)
              · rintro (h | ⟨r2, he, hc⟩)
                · exact Or.inl h
                · simp only [List.cons_append, List.cons.injEq] at he
                  refine Or.inr ⟨r2, he.2, ?_⟩
                  rcases hc with hc | hc | hc
                  · exact Or.inl hc
                  · exact absurd hc (List.cons_ne_nil b bs)
                  · exact Or.inr hc
          · have hset := lookupA_setA tree rootKey s0
              (insertParts sp (TreeNode.mk pn fsn relsn mdn) rootKey (b :: bs))
            rw [if_neg h0] at hset
            cases hlk0 : lookupA tree s0 with
            | none =>
              rw [hlk0] at hset
              rw [findNode_cons_none _ _ _ hset, findNode_cons_none _ _ _ hlk0]
              constructor
              · intro h
                simp at h
              · rintro (h | ⟨r2, he, _⟩)
                · simp at h
                · simp only [List.cons_append, List.cons.injEq] at he
                  exact absurd he.1 h0
            | some m =>
              rw [hlk0] at hset
              rw [findNode_cons_some _ _ _ _ hset, findNode_cons_some _ _ _ _ hlk0]
              constructor
              · exact fun h => Or.inl h
              · rintro (h | ⟨r2, he, _⟩)
                · exact h
                · simp only [List.cons_append, List.cons.injEq] at he
                  exact absurd he.1 h0
    | none =>
      rw [if_neg (by simp : ¬ (none : Option TreeNode).isSome = true)]
      cases segs with
      | nil => exact absurd rfl hsegs
      | cons s0 st =>
        by_cases h0 : rootKey = s0
        · subst h0
          have hset := lookupA_setA (tree ++ [(rootKey, createNode rootKey)]) rootKey rootKey
            (insertParts sp (createNode rootKey) rootKey (b :: bs))
          rw [if_pos rfl] at hset
          by_cases hst : st = []
          · subst hst
            rw [findNode_cons_some _ _ _ _ hset, if_pos rfl]
            constructor
            · intro _
              exact Or.inr ⟨b :: bs, rfl, Or.inl (List.cons_ne_nil b bs)⟩
            · intro _
              rfl
          · have hfn : findNode ([] : List (Str × TreeNode)) st = none := by
              cases st with
              | nil => rfl
              | cons a t => rfl
            rw [findNode_cons_some _ _ _ _ hset, if_neg hst, createNode_eq,
              insertParts_pos sp (b :: bs) rootKey [] [] [] rootKey st hrest hst,
              hq2, findNode_cons_none tree rootKey st hlk, hfn]
            constructor
            · rintro (h | ⟨r2, he, hc⟩)
              · simp at h
              · refine Or.inr ⟨r2, by rw [List.cons_append, he], ?_⟩
                rcases hc with hc | hc
                · exact Or.inl hc
                · exact Or.inr (Or.inr hc)
            · rintro (h | ⟨r2, he, hc⟩)
              · simp at h
              · simp only [List.cons_append, List.cons.injEq] at he
                refine Or.inr ⟨r2, he.2, ?_⟩
                rcases hc with hc | hc | hc
                · exact Or.inl hc
                · exact absurd hc (List.cons_ne_nil b bs)
                · exact Or.inr hc
        · have hset := lookupA_setA (tree ++ [(rootKey, createNode rootKey)]) rootKey s0
            (insertParts sp (createNode rootKey) rootKey (b :: bs))
          rw [if_neg h0] at hset
          rw [lookupA_append_single tree rootKey s0 (createNode rootKey) hlk, if_neg h0] at hset
          cases hlk0 : lookupA tree s0 with
          | none =>
            rw [hlk0] at hset
            rw [findNode_cons_none _ _ _ hset, findNode_cons_none _ _ _ hlk0]
            constructor
            · intro h
              simp at h
            · rintro (h | ⟨r2, he, _⟩)
              · simp at h
              · simp only [List.cons_append, List.cons.injEq] at he
                exact absurd he.1 h0
          | some m =>
            rw [hlk0] at hset
            rw [findNode_cons_some _ _ _ _ hset, findNode_cons_some _ _ _ _ hlk0]
            constructor
            · exact fun h => Or.inl h
            · rintro (h | ⟨r2, he, _⟩)
              · exact h
              · simp only [List.cons_append, List.cons.injEq] at he
                exact absurd he.1 h0

/-- Position characterization for the construction fold: a position
exists after processing a path list exactly when it existed in the
accumulator or some processed path's segment list has the position as
a prefix of the allowed shape. -/
theorem foldl_insertPath_pos (sp : SchemaPaths) :
    ∀ (pops : List Str) (t : RelTree) (segs : List Str),
      (∀ q ∈ pops, ∀ x ∈ splitOnChar sep q, x ≠ []) → segs ≠ [] →
      ((findNode (pops.foldl (insertPath sp) t) segs).isSome = true ↔
        ((findNode t segs).isSome = true ∨
          ∃ q, q ∈ pops ∧ ∃ r2, splitOnChar sep q = segs ++ r2 ∧
            (r2 ≠ [] ∨ (splitOnChar sep q).tail = [] ∨
              sp.relations.selectable.contains q = false)))
  | [], t, segs, hq, hsegs => by
    simp only [List.foldl_nil]
    constructor
    · exact fun h => Or.inl h
    · rintro (h | ⟨q, hq0, _⟩)
      · exact h
      · cases hq0
  | q0 :: qs, t, segs, hq, hsegs => by
    have hq2 : ∀ q ∈ qs, ∀ x ∈ splitOnChar sep q, x ≠ [] :=
      fun q hm => hq q (List.mem_cons_of_mem q0 hm)
    rw [List.foldl_cons,
      foldl_insertPath_pos sp qs (insertPath sp t q0) segs hq2 hsegs]
    cases hsplit : splitOnChar sep q0 with
    | nil => exact absurd hsplit (splitOnChar_ne_nil sep q0)
    | cons rootKey rest =>
      have hroot : rootKey ≠ [] :=
        hq q0 (List.mem_cons_self q0 qs) rootKey
          (by rw [hsplit]; exact List.mem_cons_self _ _)
      have hrest : ∀ x ∈ rest, x ≠ [] :=
        fun x hx => hq q0 (List.mem_cons_self q0 qs) x
          (by rw [hsplit]; exact List.mem_cons_of_mem _ hx)
      rw [insertPath_pos sp t q0 rootKey rest hsplit hroot hrest segs hsegs]
      constructor
      · rintro ((h | ⟨r2, he, hc⟩) | ⟨q, hmem, hcl⟩)
        · exact Or.inl h
        · refine Or.inr ⟨q0, List.mem_cons_self q0 qs, r2, by rw [hsplit]; exact he, ?_⟩
          rcases hc with hc | hc | hc
          · exact Or.inl hc
          · refine Or.inr (Or.inl ?_)
            rw [hsplit, List.tail_cons]
            exact hc
          · exact Or.inr (Or.inr hc)
        · exact Or.inr ⟨q, List.mem_cons_of_mem q0 hmem, hcl⟩
      · rintro (h | ⟨q, hmem, r2, he, hc⟩)
        · exact Or.inl (Or.inl h)
        · rcases List.mem_cons.mp hmem with hq0 | hq0
          · subst hq0
            rw [hsplit] at he hc
            refine Or.inl (Or.inr ⟨r2, he, ?_⟩)
            rcases hc with hc | hc | hc
            · exact Or.inl hc
            · rw [List.tail_cons] at hc
              exact Or.inr (Or.inl hc)
            · exact Or.inr (Or.inr hc)
          · exact Or.inr ⟨q, hq0, r2, he, hc⟩

/-- Position characterization for Pass 2 of the tree processor. -/
theorem constructTree_pos (sp : SchemaPaths) (pops : List Str) (segs : List Str)
    (hq : ∀ q ∈ pops, ∀ x ∈ splitOnChar sep q, x ≠ []) (hsegs : segs ≠ []) :
    ((findNode (constructTreeStructure sp pops) segs).isSome = true ↔
      ∃ q, q ∈ pops ∧ ∃ r2, splitOnChar sep q = segs ++ r2 ∧
        (r2 ≠ [] ∨ (splitOnChar sep q).tail = [] ∨
          sp.relations.selectable.contains q = false)) := by
  rw [constructTreeStructure, foldl_insertPath_pos sp pops [] segs hq hsegs]
  have hfn : findNode ([] : RelTree) segs = none := by
    cases segs with
    | nil => rfl
    | cons a t => rfl
  rw [hfn]
  constructor
  · rintro (h | h)
    · simp at h
    · exact h
  · exact fun h => Or.inr h

theorem containsS_iff (l : List Str) (x : Str) : l.contains x = true ↔ x ∈ l :=
  ⟨fun h => List.elem_iff.mp h, fun h => List.elem_iff.mpr h⟩

theorem spKeys_mem (s : Schema) (k : Str) :
    (toSchemaPaths (generateSchemaPaths s [])).relations.keys.contains k = true ↔
      k ∈ (genRelations s.populate []).1 := by
  have h1 : (toSchemaPaths (generateSchemaPaths s [])).relations.keys =
      dedup (genRelations s.populate []).1 := (generateSchemaPaths_eq s []).1
  rw [containsS_iff, h1, mem_dedup]

theorem spSel_mem (s : Schema) (q : Str) :
    (toSchemaPaths (generateSchemaPaths s [])).relations.selectable.contains q = true ↔
      q ∈ (genRelations s.populate []).2 := by
  have h1 : (toSchemaPaths (generateSchemaPaths s [])).relations.selectable =
      dedup (genRelations s.populate []).2 := (generateSchemaPaths_eq s []).2
  rw [containsS_iff, h1, mem_dedup]

theorem mem_filterValidPaths (sp : SchemaPaths) (ps : List Str) (p : Str) :
    p ∈ filterValidPaths sp ps ↔
      (p ∈ ps ∧ p ≠ [] ∧ (sp.relations.selectable.contains p = true ∨
        sp.relations.keys.contains p = true)) := by
  rw [filterValidPaths]
  simp only [List.mem_filter, isValidPath, Bool.or_eq_true, Bool.and_eq_true,
    Bool.not_eq_true', List.isEmpty_eq_false]
  tauto

theorem sel_decomp (s : Schema) (hwf : schemaWF s = true) (q : Str)
    (hq : q ∈ (genRelations s.populate []).2) :
    ∃ kk fn, kk ∈ (genRelations s.populate []).1 ∧ goodName fn = true ∧
      q = kk ++ sep :: fn ∧
      splitOnChar sep q = splitOnChar sep kk ++ [fn] := by
  obtain ⟨kk, fn, hkk, hfn, he⟩ := (genFactsS s hwf).2.2 q hq
  refine ⟨kk, fn, hkk, hfn, he, ?_⟩
  rw [he, splitOnChar_append, splitOnChar_of_no_sep sep fn (goodName_no_sep fn hfn)]

theorem accepted_clean (s : Schema) (hwf : schemaWF s = true) (q : Str)
    (hq : q ∈ (genRelations s.populate []).1 ∨ q ∈ (genRelations s.populate []).2) :
    ∀ x ∈ splitOnChar sep q, goodName x = true := by
  rcases hq with hq | hq
  · exact (genFactsS s hwf).1 q hq
  · obtain ⟨kk, fn, hkk, hfn, he, hsp⟩ := sel_decomp s hwf q hq
    intro x hx
    rw [hsp] at hx
    rcases List.mem_append.mp hx with hx | hx
    · exact (genFactsS s hwf).1 kk hkk x hx
    · rw [List.mem_singleton.mp hx]
      exact hfn

theorem sel_tail_ne (s : Schema) (hwf : schemaWF s = true) (q : Str)
    (hq : q ∈ (genRelations s.populate []).2) :
    (splitOnChar sep q).tail ≠ [] := by
  obtain ⟨kk, fn, hkk, hfn, he, hsp⟩ := sel_decomp s hwf q hq
  rw [hsp]
  cases h : splitOnChar sep kk with
  | nil => exact absurd h (splitOnChar_ne_nil sep kk)
  | cons y ys => simp

theorem accepted_take_mem (s : Schema) (hwf : schemaWF s = true) (q : Str) (j : Nat)
    (hj1 : 1 ≤ j) :
    (q ∈ (genRelations s.populate []).1 → j ≤ (splitOnChar sep q).length →
      joinSep ((splitOnChar sep q).take j) ∈ (genRelations s.populate []).1) ∧
    (q ∈ (genRelations s.populate []).2 → j < (splitOnChar sep q).length →
      joinSep ((splitOnChar sep q).take j) ∈ (genRelations s.populate []).1) := by
  constructor
  · intro hq hj2
    exact (genFactsS s hwf).2.1 q hq j hj1 hj2
  · intro hq hj2
    obtain ⟨kk, fn, hkk, hfn, he, hsp⟩ := sel_decomp s hwf q hq
    have hlen : (splitOnChar sep q).length = (splitOnChar sep kk).length + 1 := by
      rw [hsp, List.length_append, List.length_singleton]
    have hj3 : j ≤ (splitOnChar sep kk).length := by omega
    have htake : (splitOnChar sep q).take j = (splitOnChar sep kk).take j := by
      rw [hsp, List.take_append_of_le_length hj3]
    rw [htake]
    exact (genFactsS s hwf).2.1 kk hkk j hj1 hj3

theorem accepted_mem (s : Schema) (populate : List Str) (q : Str)
    (hq : q ∈ filterValidPaths (toSchemaPaths (generateSchemaPaths s [])) populate) :
    q ∈ (genRelations s.populate []).2 ∨ q ∈ (genRelations s.populate []).1 := by
  obtain ⟨-, -, hv⟩ := (mem_filterValidPaths _ populate q).mp hq
  rcases hv with hv | hv
  · exact Or.inl ((spSel_mem s q).mp hv)
  · exact Or.inr ((spKeys_mem s q).mp hv)

theorem accepted_segments_ne (s : Schema) (hwf : schemaWF s = true) (populate : List Str) :
    ∀ q ∈ filterValidPaths (toSchemaPaths (generateSchemaPaths s [])) populate,
      ∀ x ∈ splitOnChar sep q, x ≠ [] := by
  intro q hq x hx
  exact goodName_ne_nil x
    (accepted_clean s hwf q (accepted_mem s populate q hq).symm x hx)

/-- C8 (amended). For a well-formed schema, one whose declared relation
and field names are all nonempty and separator-free, and any populate
list: every position reachable in the constructed tree has all of its
nonempty dot-joined prefixes in the relation-key set of the index built
from the schema; and a node exists at a nonempty position exactly when
some accepted populate path's segment list extends the position, either
properly or as the whole path when the path is not a relation-selectable
field path. -/
theorem c8_tree_prefix_invariant_amended (s : Schema) (populate : List Str)
    (hwf : schemaWF s = true) :
    (∀ segs : List Str,
      (findNode (constructTreeStructure (toSchemaPaths (generateSchemaPaths s []))
          (filterValidPaths (toSchemaPaths (generateSchemaPaths s [])) populate))
        segs).isSome = true →
      ∀ j, 1 ≤ j → j ≤ segs.length →
        (toSchemaPaths (generateSchemaPaths s [])).relations.keys.contains
          (joinSep (segs.take j)) = true) ∧
    (∀ segs : List Str, segs ≠ [] →
      ((findNode (constructTreeStructure (toSchemaPaths (generateSchemaPaths s []))
          (filterValidPaths (toSchemaPaths (generateSchemaPaths s [])) populate))
        segs).isSome = true ↔
        ∃ q, q ∈ filterValidPaths (toSchemaPaths (generateSchemaPaths s [])) populate ∧
          ∃ r2, splitOnChar sep q = segs ++ r2 ∧
            (r2 ≠ [] ∨
              (toSchemaPaths (generateSchemaPaths s [])).relations.selectable.contains q =
                false))) := by
  constructor
  · intro segs hfind j hj1 hj2
    have hsegs : segs ≠ [] := by
      intro h
      subst h
      simp only [List.length_nil] at hj2
      omega
    rw [constructTree_pos _ _ segs (accepted_segments_ne s hwf populate) hsegs] at hfind
    obtain ⟨q, hqm, r2, he, hc⟩ := hfind
    have hlen : (splitOnChar sep q).length = segs.length + r2.length := by
      rw [he, List.length_append]
    have htake : (splitOnChar sep q).take j = segs.take j := by
      rw [he, List.take_append_of_le_length hj2]
    rw [spKeys_mem, ← htake]
    rcases accepted_mem s populate q hqm with hq2 | hq1
    · have hr2 : r2 ≠ [] := by
        rcases hc with hc | hc | hc
        · exact hc
        · exact absurd hc (sel_tail_ne s hwf q hq2)
        · have h5 := (spSel_mem s q).mpr hq2
          rw [hc] at h5
          exact absurd h5 Bool.false_ne_true
      have hj4 : j < (splitOnChar sep q).length := by
        have := List.length_pos.mpr hr2
        omega
      exact (accepted_take_mem s hwf q j hj1).2 hq2 hj4
    · refine (accepted_take_mem s hwf q j hj1).1 hq1 ?_
      omega
  · intro segs hsegs
    rw [constructTree_pos _ _ segs (accepted_segments_ne s hwf populate) hsegs]
    constructor
    · rintro ⟨q, hqm, r2, he, hc⟩
      refine ⟨q, hqm, r2, he, ?_⟩
      rcases hc with hc | hc | hc
      · exact Or.inl hc
      · refine Or.inr ?_
        cases hcontains :
            (toSchemaPaths (generateSchemaPaths s [])).relations.selectable.contains q with
        | false => rfl
        | true => exact absurd hc (sel_tail_ne s hwf q ((spSel_mem s q).mp hcontains))
      · exact Or.inr hc
    · rintro ⟨q, hqm, r2, he, hc⟩
      refine ⟨q, hqm, r2, he, ?_⟩
      rcases hc with hc | hc
      · exact Or.inl hc
      · exact Or.inr (Or.inr hc)

/-- A small well-formed schema with one root relation carrying a
selectable field and a nested relation, used to instantiate the
amended tree-position invariant. -/
def twoLevelSchema : Schema :=
  .mk none none
    [("a".data, .mk (some ["x".data]) none [("b".data, .mk none none [])])]

/-- Closed witness for the amended C8: populating a.b on the two-level
schema yields a node at position a, b, and the one-segment prefix a is
a member of the relation-key set of the built index. -/
theorem c8_tree_prefix_invariant_amended_witness :
    (toSchemaPaths (generateSchemaPaths twoLevelSchema [])).relations.keys.contains
      (joinSep (["a".data, "b".data].take 1)) = true :=
  (c8_tree_prefix_invariant_amended twoLevelSchema ["a.b".data] (by decide)).1
    ["a".data, "b".data] (by decide) 1 (by decide) (by decide)
